import Mathlib

/-!
Verification development for a minimal `make`-style build tool.

The source program parses a Makefile-like text into a list of targets
(name, dependencies, commands) and recursively builds targets: it first
builds every dependency (another target, or a file that must exist), then
echoes and executes each of the target's own shell commands, failing with
`BuildError` as soon as a command produces any output on stderr.

Strings are modelled as `List Char`; the external shell and filesystem are
modelled as an explicit environment (oracle).  Recursion over the
dependency graph may diverge on cyclic graphs, so the executor takes fuel:
`none` means the recursion did not terminate within the given fuel.
A `HashMap`-unwrap panic in the parser's linking pass is modelled as the
`none` case of an `Option` result.
-/

namespace MakeRs

/-- Convert a string literal to the `List Char` representation used throughout. -/
def str (s : String) : List Char := s.toList

/-- Whitespace predicate (model of `char::is_whitespace` on the ASCII range:
space, tab, newline, carriage return, vertical tab, form feed). -/
def isWS (c : Char) : Bool :=
  c == ' ' || c == '\t' || c == '\n' || c == '\r' || c == '\x0b' || c == '\x0c'

/-- Trim whitespace from both ends (model of `str::trim`). -/
def trim (l : List Char) : List Char :=
  ((l.dropWhile isWS).reverse.dropWhile isWS).reverse

/-- Does the line start with a tab character (model of `line.starts_with('\t')`)? -/
def startsTab : List Char → Bool
  | c :: _ => c == '\t'
  | [] => false

/-- Split at the first occurrence of `c` (model of `str::split_once`):
`some (before, after)` when `c` occurs, `none` otherwise. -/
def splitOnceChar (c : Char) : List Char → Option (List Char × List Char)
  | [] => none
  | x :: xs =>
    if x = c then some ([], xs)
    else (splitOnceChar c xs).map (fun p => (x :: p.1, p.2))

/-- Split into maximal runs of non-whitespace (model of `str::split_whitespace`). -/
def splitWhitespace : List Char → List (List Char)
  | [] => []
  | c :: rest =>
    if isWS c then splitWhitespace rest
    else
      (c :: rest.takeWhile (fun x => !isWS x)) ::
        splitWhitespace (rest.dropWhile (fun x => !isWS x))
termination_by l => l.length
decreasing_by
  · simp only [List.length_cons]
    exact Nat.lt_succ_self _
  · exact Nat.lt_succ_of_le (List.dropWhile_sublist _ |>.length_le)

/-- Split at every `'\n'` (the n+1 segments view underlying `str::lines`). -/
def splitOnNl : List Char → List (List Char)
  | [] => [[]]
  | c :: rest =>
    match splitOnNl rest with
    | p :: ps => if c = '\n' then [] :: p :: ps else (c :: p) :: ps
    | [] => [[]]

/-- Strip one trailing carriage return (the `\r\n` handling of `str::lines`). -/
def stripCR (l : List Char) : List Char :=
  if l.getLast? = some '\r' then l.dropLast else l

/-- Model of Rust `str::lines`: split on `'\n'`, drop a final empty segment
(which exists exactly when the text is empty or ends in `'\n'`), and strip a
trailing `'\r'` from every line. -/
def linesOf (l : List Char) : List (List Char) :=
  let ps := splitOnNl l
  (if ps.getLast? = some [] then ps.dropLast else ps).map stripCR

/-- Line filter of `Makefile::from_str`: discard empty lines and lines whose
trimmed form starts with `'#'`. -/
def keepLine (l : List Char) : Bool :=
  !(l.isEmpty || (trim l).take 1 == ['#'])

/-- Inline-comment truncation of `Makefile::from_str`: keep the part of the
line before the first `'#'`, if any. -/
def truncAtHash (l : List Char) : List Char :=
  match splitOnceChar '#' l with
  | some p => p.1
  | none => l

/-- The preprocessed line stream of `Makefile::from_str`: filter out empty and
comment lines, then truncate inline comments. -/
def preprocess (ls : List (List Char)) : List (List Char) :=
  (ls.filter keepLine).map truncAtHash

/-- Domain-specific errors (`enum MakeError`). -/
inductive MakeError
  | DependencyDoesNotExist
  | NoTargets
  | LineIsNotATarget
  | BuildError
  | NoSuchTarget
  deriving DecidableEq, Repr

/-- A make target (`struct Target`): a name, dependency names and shell
command lines.  Dependencies are stored as the raw name strings; they are
resolved against the target list (first match by name) exactly as the
source's linking pass / `Dependency` values do, see `resolveDep`. -/
structure Target where
  name : List Char
  dependencies : List (List Char)
  commands : List (List Char)
  deriving DecidableEq, Repr

/-- A Makefile (`struct Makefile`): the list of targets in file order. -/
structure Makefile where
  targets : List Target
  deriving DecidableEq, Repr

/-- A target's resolved dependency (`enum Dependency`): another target, or a
file path that must exist. -/
inductive Dependency
  | target : Target → Dependency
  | file : List Char → Dependency
  deriving DecidableEq, Repr

/-- Dependency resolution of the linking pass of `Makefile::from_str`
(lines 161-177): a dependency name that equals some target's name (first
match in target-list order) is a target reference, anything else is a file.
The list is immutable after parse, so resolving at build time is
observationally identical to the source's parse-time resolution. -/
def resolveDep (mf : Makefile) (n : List Char) : Dependency :=
  match mf.targets.find? (fun t => t.name == n) with
  | some t => .target t
  | none => .file n

/-- The resolved dependency list of a target. -/
def resolvedDeps (mf : Makefile) (t : Target) : List Dependency :=
  t.dependencies.map (resolveDep mf)

/-- The header-line pass of `Makefile::from_str` (lines 129-159): each
remaining line must contain `':'` (else `LineIsNotATarget`); the part before
the first `':'` is the name (not trimmed), the part after is
whitespace-split into dependency names; following tab-initial lines are the
target's commands, each trimmed. -/
def parseTargets : List (List Char) → Except MakeError (List Target)
  | [] => .ok []
  | line :: rest =>
    match splitOnceChar ':' line with
    | none => .error .LineIsNotATarget
    | some (tname, depStr) =>
      match parseTargets (rest.dropWhile startsTab) with
      | .error e => .error e
      | .ok ts =>
        .ok (⟨tname, (splitWhitespace depStr).map trim,
              (rest.takeWhile startsTab).map trim⟩ :: ts)
termination_by ls => ls.length
decreasing_by
  exact Nat.lt_succ_of_le (List.dropWhile_sublist _ |>.length_le)

/-- The dependency map built during the header pass (`deps: HashMap<&str, Vec<String>>`):
an association list with insert-overwrite semantics. -/
def DepMap := List (List Char × List (List Char))

/-- `HashMap::insert`: overwrite any existing binding for the key. -/
def insertKV (k : List Char) (v : List (List Char)) (m : DepMap) : DepMap :=
  (k, v) :: (List.filter (fun p => p.1 != k) m)

/-- `HashMap::remove` followed by `unwrap`'s value use: `none` when the key
is absent (the panic case), otherwise the value and the map without the key. -/
def removeKV (k : List Char) (m : DepMap) : Option (List (List Char) × DepMap) :=
  match List.lookup k m with
  | none => none
  | some v => some (v, List.filter (fun p => p.1 != k) m)

/-- The dependency map after the header pass: one insert per header, in order. -/
def buildDepMap (ts : List Target) : DepMap :=
  ts.foldl (fun m t => insertKV t.name t.dependencies m) []

/-- The linking pass of `Makefile::from_str` (lines 161-177): for each target
in order, `deps.remove(name).unwrap()` and install the resulting dependency
list.  `none` models the `unwrap` panic on a duplicate name. -/
def linkAll : List Target → DepMap → Option (List Target)
  | [], _ => some []
  | t :: ts, m =>
    match removeKV t.name m with
    | none => none
    | some (ds, m') =>
      match linkAll ts m' with
      | none => none
      | some ts' => some ({ t with dependencies := ds } :: ts')

/-- `Makefile::from_str`: split into lines, filter comments/empties, truncate
inline comments, parse headers and commands, then run the linking pass.
`none` models a panic, `some (.error e)` a returned parse error. -/
def fromStr (input : List Char) : Option (Except MakeError Makefile) :=
  match parseTargets (preprocess (linesOf input)) with
  | .error e => some (.error e)
  | .ok ts =>
    match linkAll ts (buildDepMap ts) with
    | none => none
    | some ts' => some (.ok ⟨ts'⟩)

/-- Observable output events of a build: a line printed to stdout
(`println!`), a shell invocation (`Command::new("sh").arg("-c").arg(cmd)`),
and content forwarded to stderr (`eprint!`). -/
inductive Event
  | out : List Char → Event
  | exec : List Char → Event
  | errOut : List Char → Event
  deriving DecidableEq, Repr

/-- The pair of events a single command contributes on the success path. -/
def echoExec (c : List Char) : List Event := [Event.out c, Event.exec c]

/-- Captured output of one shell invocation (`std::process::Output`). -/
structure CmdOutput where
  stdout : List Char
  stderr : List Char
  status : Int

/-- The external world: the shell (command line ↦ captured output) and the
filesystem (`Path::exists`). -/
structure Env where
  run : List Char → CmdOutput
  fileExists : List Char → Bool

/-- A test environment: every command succeeds silently, no file exists. -/
def quietEnv : Env := ⟨fun _ => ⟨[], [], 0⟩, fun _ => false⟩

/-- A test environment: every command succeeds silently, every path exists. -/
def allFilesEnv : Env := ⟨fun _ => ⟨[], [], 0⟩, fun _ => true⟩

/-- A test environment: the command `bcmd` writes `boom` to stderr; every
other command exits with status 1 but writes nothing to stderr; no file
exists. -/
def boomEnv : Env :=
  ⟨fun c => if c = str "bcmd" then ⟨[], str "boom", 0⟩ else ⟨[], [], 1⟩,
    fun _ => false⟩

/-- As `boomEnv` but with different captured stdout and exit statuses
(identical stderr and filesystem). -/
def boomEnv2 : Env :=
  ⟨fun c => if c = str "bcmd" then ⟨str "noise", str "boom", 7⟩ else ⟨str "noise", [], 0⟩,
    fun _ => false⟩

/-- The command loop of `Target::make` (lines 89-102): echo the command,
execute it, and fail with `BuildError` (after forwarding stderr) as soon as
a command's captured stderr is non-empty.  The exit status is never read. -/
def runCommands (env : Env) : List (List Char) → Except MakeError Unit × List Event
  | [] => (.ok (), [])
  | c :: cs =>
    if (env.run c).stderr = [] then
      ((runCommands env cs).1,
        Event.out c :: Event.exec c :: (runCommands env cs).2)
    else
      (.error .BuildError,
        [Event.out c, Event.exec c, Event.errOut (env.run c).stderr])

mutual

/-- `Target::make` (lines 77-105): build every dependency in order, then run
this target's own commands.  Fuel bounds the recursion depth; `none` means
the fuel ran out (the source would recurse further, forever on a cycle). -/
def makeTarget : Nat → Makefile → Target → Env → Option (Except MakeError Unit × List Event)
  | 0, _, _, _ => none
  | Nat.succ fuel, mf, t, env =>
    match makeDeps fuel mf (resolvedDeps mf t) env with
    | none => none
    | some (.error e, tr) => some (.error e, tr)
    | some (.ok _, tr) =>
      some ((runCommands env t.commands).1, tr ++ (runCommands env t.commands).2)
termination_by fuel _ _ _ => (fuel, 0)

/-- The dependency loop of `Target::make` (lines 78-87): a target dependency
is built recursively (errors propagate immediately); a file dependency must
exist, else `DependencyDoesNotExist`. -/
def makeDeps : Nat → Makefile → List Dependency → Env → Option (Except MakeError Unit × List Event)
  | _, _, [], _ => some (.ok (), [])
  | fuel, mf, d :: ds, env =>
    match d with
    | .target u =>
      match makeTarget fuel mf u env with
      | none => none
      | some (.error e, tr) => some (.error e, tr)
      | some (.ok _, tr) =>
        match makeDeps fuel mf ds env with
        | none => none
        | some (r, tr') => some (r, tr ++ tr')
    | .file f =>
      if env.fileExists f then makeDeps fuel mf ds env
      else some (.error .DependencyDoesNotExist, [])
termination_by fuel _ ds _ => (fuel, ds.length + 1)

end

/-- `Makefile::make` (lines 183-193): look up the requested name (first match
in target-list order; no file fallback) and build it; `NoSuchTarget` when no
target has that name. -/
def makefileMake (fuel : Nat) (mf : Makefile) (name : List Char) (env : Env) :
    Option (Except MakeError Unit × List Event) :=
  match mf.targets.find? (fun t => t.name == name) with
  | none => some (.error .NoSuchTarget, [])
  | some t => makeTarget fuel mf t env

mutual

/-- Modelled from the spec: the expected build order — pre-order, depth-first,
left-to-right traversal of the dependency lists, each dependency's commands
before the owning target's own commands.  Fuel mirrors `makeTarget`. -/
def specBuildOrder : Nat → Makefile → Target → List (List Char)
  | 0, _, _ => []
  | Nat.succ fuel, mf, t =>
    specDepsOrder fuel mf (resolvedDeps mf t) ++ t.commands
termination_by fuel _ _ => (fuel, 0)

/-- Modelled from the spec: build order contributed by a dependency list. -/
def specDepsOrder : Nat → Makefile → List Dependency → List (List Char)
  | _, _, [] => []
  | fuel, mf, d :: ds =>
    (match d with
     | .target u => specBuildOrder fuel mf u
     | .file _ => []) ++ specDepsOrder fuel mf ds
termination_by fuel _ ds => (fuel, ds.length + 1)

end

/-- Modelled from the spec: the canonical header+tab-command serialization of
a Makefile: one header line `name:<deps each preceded by a space>` per
target, followed by one tab-prefixed line per command; lines joined by `'\n'`. -/
def serializeLines (mf : Makefile) : List (List Char) :=
  mf.targets.flatMap (fun t =>
    (t.name ++ ':' :: t.dependencies.flatMap (fun d => ' ' :: d)) ::
      t.commands.map (fun c => '\t' :: c))

/-- Join lines with `'\n'` separators. -/
def joinLines : List (List Char) → List Char
  | [] => []
  | [l] => l
  | l :: ls => l ++ '\n' :: joinLines ls

/-- Modelled from the spec: serialize a Makefile to text. -/
def serializeMakefile (mf : Makefile) : List Char :=
  joinLines (serializeLines mf)

/-- The two ends of the list carry no whitespace. -/
def NoWSEnds (l : List Char) : Prop :=
  (∀ a, l.head? = some a → isWS a = false) ∧
  (∀ a, l.reverse.head? = some a → isWS a = false)

/-- Structural invariants of a target produced by a successful parse:
the name is the raw text before the first colon of a comment-truncated line,
dependencies are whitespace-split tokens, commands are trimmed lines. -/
def WFTarget (t : Target) : Prop :=
  (':' ∉ t.name ∧ '#' ∉ t.name ∧ '\n' ∉ t.name) ∧
  (∀ d ∈ t.dependencies, d ≠ [] ∧ (∀ c ∈ d, isWS c = false) ∧ '#' ∉ d) ∧
  (∀ c ∈ t.commands, trim c = c ∧ '#' ∉ c ∧ '\n' ∉ c)

/-- Invariants of the target list of a successful parse: each target is
well-formed and no target after the first has a tab-initial name (a
tab-initial line can only ever be consumed as the very first header). -/
def WFTargets (ts : List Target) : Prop :=
  (∀ t ∈ ts, WFTarget t) ∧ ∀ t ∈ ts.tail, startsTab t.name = false

deriving instance DecidableEq for Except

/-! ## Basic list lemmas -/

theorem head?_mem {α : Type} {l : List α} {a : α} (h : l.head? = some a) : a ∈ l := by
  cases l with
  | nil => simp at h
  | cons x xs =>
    simp only [List.head?_cons, Option.some.injEq] at h
    exact h ▸ List.mem_cons_self x xs

theorem dropWhile_head?_false {α : Type} (p : α → Bool) :
    ∀ (l : List α) {a : α}, (l.dropWhile p).head? = some a → p a = false := by
  intro l
  induction l with
  | nil => intro a h; simp [List.dropWhile] at h
  | cons x xs ih =>
    intro a h
    by_cases hx : p x
    · rw [List.dropWhile_cons, if_pos hx] at h
      exact ih h
    · rw [List.dropWhile_cons, if_neg hx] at h
      simp only [List.head?_cons, Option.some.injEq] at h
      subst h
      simpa using hx

theorem dropWhile_eq_self_of_head {α : Type} {p : α → Bool} {l : List α}
    (h : ∀ a, l.head? = some a → p a = false) : l.dropWhile p = l := by
  cases l with
  | nil => rfl
  | cons x xs =>
    rw [List.dropWhile_cons, if_neg]
    simp [h x rfl]

theorem dropWhile_ne_nil_reverse_head? {α : Type} (p : α → Bool) :
    ∀ (l : List α), l.dropWhile p ≠ [] →
      (l.dropWhile p).reverse.head? = l.reverse.head? := by
  intro l
  induction l with
  | nil => simp
  | cons x xs ih =>
    intro hne
    by_cases hx : p x
    · rw [List.dropWhile_cons, if_pos hx] at hne ⊢
      rw [ih hne, List.reverse_cons]
      have hxs : xs ≠ [] := by
        intro hh
        exact hne (by simp [hh, List.dropWhile])
      have : xs.reverse ≠ [] := by simpa using hxs
      cases hrev : xs.reverse with
      | nil => exact absurd hrev this
      | cons y ys => simp [hrev]
    · rw [List.dropWhile_cons, if_neg hx]

/-! ## trim lemmas -/

theorem trim_eq_self {l : List Char} (h : NoWSEnds l) : trim l = l := by
  unfold trim
  rw [dropWhile_eq_self_of_head h.1, dropWhile_eq_self_of_head h.2, List.reverse_reverse]

theorem noWSEnds_trim (l : List Char) : NoWSEnds (trim l) := by
  unfold trim
  set d1 := l.dropWhile isWS with hd1
  set d2 := d1.reverse.dropWhile isWS with hd2
  constructor
  · intro a ha
    by_cases hnil : d2 = []
    · rw [hnil] at ha; simp at ha
    · rw [dropWhile_ne_nil_reverse_head? isWS d1.reverse (hd2 ▸ hnil)] at ha
      rw [List.reverse_reverse] at ha
      exact dropWhile_head?_false isWS l ha
  · intro a ha
    rw [List.reverse_reverse] at ha
    exact dropWhile_head?_false isWS d1.reverse ha

theorem trim_idem (l : List Char) : trim (trim l) = trim l :=
  trim_eq_self (noWSEnds_trim l)

theorem trim_subset (l : List Char) : trim l ⊆ l := by
  intro c hc
  unfold trim at hc
  rw [List.mem_reverse] at hc
  have h1 := (List.dropWhile_sublist (l := (l.dropWhile isWS).reverse) isWS).subset hc
  rw [List.mem_reverse] at h1
  exact (List.dropWhile_sublist isWS).subset h1

theorem trim_of_ws_free {l : List Char} (h : ∀ c ∈ l, isWS c = false) : trim l = l :=
  trim_eq_self ⟨fun a ha => h a (head?_mem ha),
    fun a ha => h a (by rw [← List.mem_reverse]; exact head?_mem ha)⟩

theorem trim_cons_ws {c : Char} {l : List Char} (h : isWS c = true) :
    trim (c :: l) = trim l := by
  unfold trim
  rw [List.dropWhile_cons, if_pos h]

/-! ## splitOnceChar lemmas -/

theorem splitOnceChar_eq_some {c : Char} :
    ∀ {l a b : List Char}, splitOnceChar c l = some (a, b) → l = a ++ c :: b ∧ c ∉ a := by
  intro l
  induction l with
  | nil => intro a b h; simp [splitOnceChar] at h
  | cons x xs ih =>
    intro a b h
    unfold splitOnceChar at h
    by_cases hx : x = c
    · rw [if_pos hx] at h
      simp only [Option.some.injEq, Prod.mk.injEq] at h
      obtain ⟨ha, hb⟩ := h
      subst ha; subst hb; subst hx
      exact ⟨rfl, by simp⟩
    · rw [if_neg hx] at h
      cases hs : splitOnceChar c xs with
      | none => rw [hs] at h; simp at h
      | some p =>
        rw [hs] at h
        simp only [Option.map_some', Option.some.injEq, Prod.mk.injEq] at h
        obtain ⟨ha, hb⟩ := h
        obtain ⟨hxs, hcp⟩ := ih (a := p.1) (b := p.2) (by rw [hs])
        subst ha; subst hb
        constructor
        · simp [hxs]
        · intro hmem
          rcases List.mem_cons.mp hmem with h1 | h2
          · exact hx h1.symm
          · exact hcp h2

theorem splitOnceChar_of_not_mem {c : Char} :
    ∀ {l : List Char}, c ∉ l → splitOnceChar c l = none := by
  intro l
  induction l with
  | nil => intro _; rfl
  | cons x xs ih =>
    intro h
    unfold splitOnceChar
    rw [if_neg (by intro hx; exact h (hx ▸ List.mem_cons_self x xs)),
      ih (fun hm => h (List.mem_cons_of_mem x hm))]
    rfl

theorem map_id_of {α : Type} {f : α → α} :
    ∀ {l : List α}, (∀ x ∈ l, f x = x) → l.map f = l := by
  intro l
  induction l with
  | nil => intro _; rfl
  | cons x xs ih =>
    intro h
    rw [List.map_cons, h x (List.mem_cons_self x xs),
      ih (fun y hy => h y (List.mem_cons_of_mem x hy))]

theorem takeWhile_append_all {α : Type} {p : α → Bool} {a b : List α}
    (h : ∀ x ∈ a, p x = true) : (a ++ b).takeWhile p = a ++ b.takeWhile p := by
  induction a with
  | nil => simp
  | cons x xs ih =>
    rw [List.cons_append, List.takeWhile_cons, if_pos (h x (List.mem_cons_self x xs)),
      ih (fun y hy => h y (List.mem_cons_of_mem x hy)), List.cons_append]

theorem dropWhile_append_all {α : Type} {p : α → Bool} {a b : List α}
    (h : ∀ x ∈ a, p x = true) : (a ++ b).dropWhile p = b.dropWhile p := by
  induction a with
  | nil => simp
  | cons x xs ih =>
    rw [List.cons_append, List.dropWhile_cons, if_pos (h x (List.mem_cons_self x xs)),
      ih (fun y hy => h y (List.mem_cons_of_mem x hy))]

theorem takeWhile_nil_of_head {α : Type} {p : α → Bool} {l : List α}
    (h : ∀ a, l.head? = some a → p a = false) : l.takeWhile p = [] := by
  cases l with
  | nil => rfl
  | cons x xs => rw [List.takeWhile_cons, if_neg (by simp [h x rfl])]

theorem splitOnceChar_append {c : Char} {a b : List Char} (h : c ∉ a) :
    splitOnceChar c (a ++ c :: b) = some (a, b) := by
  induction a with
  | nil => simp [splitOnceChar]
  | cons x xs ih =>
    have hx : x ≠ c := fun hx => h (hx ▸ List.mem_cons_self x xs)
    have hxs : c ∉ xs := fun hm => h (List.mem_cons_of_mem x hm)
    rw [List.cons_append]
    unfold splitOnceChar
    rw [if_neg hx, ih hxs]
    rfl

/-! ## splitWhitespace lemmas -/

theorem mem_splitWhitespace :
    ∀ (l : List Char) (w : List Char), w ∈ splitWhitespace l →
      w ≠ [] ∧ ∀ c ∈ w, isWS c = false ∧ c ∈ l := by
  intro l
  induction l using splitWhitespace.induct with
  | case1 =>
    intro w hw
    simp [splitWhitespace] at hw
  | case2 x xs hx ih =>
    intro w hw
    rw [splitWhitespace, if_pos hx] at hw
    obtain ⟨h1, h2⟩ := ih w hw
    exact ⟨h1, fun c hc => ⟨(h2 c hc).1, List.mem_cons_of_mem x (h2 c hc).2⟩⟩
  | case3 x xs hx ih =>
    intro w hw
    rw [splitWhitespace, if_neg hx] at hw
    rcases List.mem_cons.mp hw with hw1 | hw2
    · subst hw1
      refine ⟨by simp, fun c hc => ?_⟩
      rcases List.mem_cons.mp hc with hc1 | hc2
      · subst hc1
        exact ⟨by simpa using hx, List.mem_cons_self _ _⟩
      · have hp := List.mem_takeWhile_imp hc2
        have hmem := (List.takeWhile_sublist (l := xs) (fun x => !isWS x)).subset hc2
        exact ⟨by simpa using hp, List.mem_cons_of_mem x hmem⟩
    · obtain ⟨h1, h2⟩ := ih w hw2
      refine ⟨h1, fun c hc => ⟨(h2 c hc).1, ?_⟩⟩
      have := (List.dropWhile_sublist (l := xs) (fun x => !isWS x)).subset (h2 c hc).2
      exact List.mem_cons_of_mem x this

theorem splitWhitespace_flatMap_space :
    ∀ (ds : List (List Char)), (∀ d ∈ ds, d ≠ [] ∧ ∀ c ∈ d, isWS c = false) →
      splitWhitespace (ds.flatMap (fun d => ' ' :: d)) = ds := by
  intro ds
  induction ds with
  | nil => intro _; simp [splitWhitespace]
  | cons d ds ih =>
    intro h
    obtain ⟨hne, hwf⟩ := h d (List.mem_cons_self d ds)
    obtain ⟨c, d', rfl⟩ : ∃ c d', d = c :: d' := by
      cases d with
      | nil => exact absurd rfl hne
      | cons c d' => exact ⟨c, d', rfl⟩
    have hc : isWS c = false := hwf c (List.mem_cons_self c d')
    have hd' : ∀ x ∈ d', isWS x = false := fun x hx => hwf x (List.mem_cons_of_mem c hx)
    have htail : ∀ a, (ds.flatMap (fun d => ' ' :: d)).head? = some a → (!isWS a) = false := by
      intro a ha
      cases ds with
      | nil => simp at ha
      | cons e es =>
        simp only [List.flatMap_cons, List.cons_append, List.head?_cons,
          Option.some.injEq] at ha
        subst ha
        simp [isWS]
    show splitWhitespace (' ' :: (c :: d' ++ ds.flatMap (fun d => ' ' :: d))) = _
    rw [splitWhitespace, if_pos (by simp [isWS])]
    rw [show (c :: d' ++ ds.flatMap (fun d => ' ' :: d)) =
      c :: (d' ++ ds.flatMap (fun d => ' ' :: d)) from rfl]
    rw [splitWhitespace, if_neg (by simp [hc])]
    rw [takeWhile_append_all (by intro x hx; simp [hd' x hx]),
      dropWhile_append_all (by intro x hx; simp [hd' x hx]),
      takeWhile_nil_of_head htail, dropWhile_eq_self_of_head htail,
      List.append_nil]
    rw [ih (fun e he => h e (List.mem_cons_of_mem (c :: d') he))]

/-! ## linesOf / joinLines lemmas -/

theorem getLast?_mem {α : Type} {l : List α} {a : α} (h : l.getLast? = some a) : a ∈ l := by
  have h' : l.reverse.head? = some a := by rw [List.head?_reverse]; exact h
  have := head?_mem h'
  simpa using this

theorem splitOnNl_ne_nil : ∀ (l : List Char), splitOnNl l ≠ [] := by
  intro l
  induction l with
  | nil => simp [splitOnNl]
  | cons c rest ih =>
    unfold splitOnNl
    cases hs : splitOnNl rest with
    | nil => simp
    | cons q qs =>
      by_cases hc : c = '\n' <;> simp [hc]

theorem mem_splitOnNl_no_nl :
    ∀ (l : List Char) (p : List Char), p ∈ splitOnNl l → '\n' ∉ p := by
  intro l
  induction l with
  | nil =>
    intro p hp
    simp only [splitOnNl, List.mem_singleton] at hp
    subst hp; simp
  | cons c rest ih =>
    intro p hp
    unfold splitOnNl at hp
    cases hs : splitOnNl rest with
    | nil => exact absurd hs (splitOnNl_ne_nil rest)
    | cons q qs =>
      rw [hs] at hp
      replace hp : p ∈ (if c = '\n' then ([] : List Char) :: q :: qs
          else (c :: q) :: qs) := hp
      by_cases hc : c = '\n'
      · rw [if_pos hc] at hp
        rcases List.mem_cons.mp hp with h1 | h2
        · subst h1; simp
        · exact ih p (hs ▸ h2)
      · rw [if_neg hc] at hp
        rcases List.mem_cons.mp hp with h1 | h2
        · subst h1
          intro hmem
          rcases List.mem_cons.mp hmem with h3 | h4
          · exact hc h3.symm
          · exact ih q (hs ▸ List.mem_cons_self q qs) h4
        · exact ih p (hs ▸ List.mem_cons_of_mem q h2)

theorem splitOnNl_append {a b q : List Char} {qs : List (List Char)}
    (h : '\n' ∉ a) (hb : splitOnNl b = q :: qs) :
    splitOnNl (a ++ b) = (a ++ q) :: qs := by
  induction a with
  | nil => simpa using hb
  | cons x xs ih =>
    have hx : x ≠ '\n' := fun hh => h (hh ▸ List.mem_cons_self x xs)
    have hxs : '\n' ∉ xs := fun hm => h (List.mem_cons_of_mem x hm)
    rw [List.cons_append]
    unfold splitOnNl
    rw [ih hxs]
    show (if x = '\n' then [] :: (xs ++ q) :: qs else (x :: (xs ++ q)) :: qs) =
      ((x :: xs) ++ q) :: qs
    rw [if_neg hx, List.cons_append]

theorem splitOnNl_no_nl {l : List Char} (h : '\n' ∉ l) : splitOnNl l = [l] := by
  have := @splitOnNl_append l [] [] [] h rfl
  simpa using this

theorem splitOnNl_joinLines :
    ∀ (ls : List (List Char)), ls ≠ [] → (∀ l ∈ ls, '\n' ∉ l) →
      splitOnNl (joinLines ls) = ls := by
  intro ls
  induction ls with
  | nil => intro h _; exact absurd rfl h
  | cons l ls' ih =>
    intro _ hnl
    cases ls' with
    | nil => exact splitOnNl_no_nl (hnl l (List.mem_cons_self l []))
    | cons l2 ls2 =>
      have hrec : splitOnNl (joinLines (l2 :: ls2)) = l2 :: ls2 :=
        ih (by simp) (fun x hx => hnl x (List.mem_cons_of_mem l hx))
      have hstep : splitOnNl ('\n' :: joinLines (l2 :: ls2)) = [] :: l2 :: ls2 := by
        unfold splitOnNl
        rw [hrec]
        show (if '\n' = '\n' then ([] : List Char) :: l2 :: ls2
          else ('\n' :: l2) :: ls2) = [] :: l2 :: ls2
        rw [if_pos rfl]
      have : joinLines (l :: l2 :: ls2) = l ++ '\n' :: joinLines (l2 :: ls2) := rfl
      rw [this, splitOnNl_append (hnl l (List.mem_cons_self l _)) hstep,
        List.append_nil]

theorem stripCR_eq_self {l : List Char} (h : l.getLast? ≠ some '\r') : stripCR l = l := by
  unfold stripCR
  rw [if_neg h]

theorem linesOf_joinLines {ls : List (List Char)}
    (h1 : ∀ l ∈ ls, '\n' ∉ l)
    (h2 : ∀ l ∈ ls, l.getLast? ≠ some '\r')
    (h3 : ls.getLast? ≠ some []) :
    linesOf (joinLines ls) = ls := by
  cases ls with
  | nil => rfl
  | cons l ls' =>
    have hs : splitOnNl (joinLines (l :: ls')) = l :: ls' :=
      splitOnNl_joinLines _ (by simp) h1
    unfold linesOf
    rw [hs]
    show List.map stripCR
      (if (l :: ls').getLast? = some [] then (l :: ls').dropLast else l :: ls') = l :: ls'
    rw [if_neg h3]
    exact map_id_of (fun x hx => stripCR_eq_self (h2 x hx))

theorem mem_linesOf_no_nl {input p : List Char} (hp : p ∈ linesOf input) : '\n' ∉ p := by
  unfold linesOf at hp
  rcases List.mem_map.mp hp with ⟨q, hq, rfl⟩
  have hq' : q ∈ splitOnNl input := by
    by_cases hcond : (splitOnNl input).getLast? = some []
    · rw [if_pos hcond] at hq
      exact (List.dropLast_sublist _).subset hq
    · rwa [if_neg hcond] at hq
  have hnl := mem_splitOnNl_no_nl input q hq'
  intro hmem
  unfold stripCR at hmem
  by_cases hcr : q.getLast? = some '\r'
  · rw [if_pos hcr] at hmem
    exact hnl ((List.dropLast_sublist q).subset hmem)
  · rw [if_neg hcr] at hmem
    exact hnl hmem

/-! ## preprocess lemmas -/

theorem splitOnceChar_none_not_mem {c : Char} :
    ∀ {l : List Char}, splitOnceChar c l = none → c ∉ l := by
  intro l
  induction l with
  | nil => intro _; simp
  | cons x xs ih =>
    intro h
    unfold splitOnceChar at h
    by_cases hx : x = c
    · rw [if_pos hx] at h; simp at h
    · rw [if_neg hx] at h
      cases hs : splitOnceChar c xs with
      | some p => rw [hs] at h; simp at h
      | none =>
        intro hmem
        rcases List.mem_cons.mp hmem with h1 | h2
        · exact hx h1.symm
        · exact ih hs h2

theorem truncAtHash_no_hash (l : List Char) : '#' ∉ truncAtHash l := by
  unfold truncAtHash
  cases hs : splitOnceChar '#' l with
  | some p => exact (splitOnceChar_eq_some (a := p.1) (b := p.2) (by rw [hs])).2
  | none => exact splitOnceChar_none_not_mem hs

theorem truncAtHash_subset (l : List Char) : truncAtHash l ⊆ l := by
  unfold truncAtHash
  cases hs : splitOnceChar '#' l with
  | some p =>
    obtain ⟨heq, _⟩ := splitOnceChar_eq_some (a := p.1) (b := p.2) (by rw [hs])
    intro c hc
    rw [heq]
    exact List.mem_append_left _ hc
  | none => exact fun c hc => hc

theorem truncAtHash_eq_self {l : List Char} (h : '#' ∉ l) : truncAtHash l = l := by
  unfold truncAtHash
  rw [splitOnceChar_of_not_mem h]

theorem mem_preprocess_no_hash {ls : List (List Char)} {l : List Char}
    (h : l ∈ preprocess ls) : '#' ∉ l := by
  unfold preprocess at h
  rcases List.mem_map.mp h with ⟨q, _, rfl⟩
  exact truncAtHash_no_hash q

theorem mem_preprocess_subset {ls : List (List Char)} {l : List Char}
    (h : l ∈ preprocess ls) : ∃ l₀ ∈ ls, l ⊆ l₀ := by
  unfold preprocess at h
  rcases List.mem_map.mp h with ⟨q, hq, rfl⟩
  exact ⟨q, List.mem_of_mem_filter hq, truncAtHash_subset q⟩

theorem preprocess_eq_self {ls : List (List Char)}
    (h1 : ∀ l ∈ ls, l ≠ []) (h2 : ∀ l ∈ ls, '#' ∉ l) : preprocess ls = ls := by
  unfold preprocess
  have hf : ls.filter keepLine = ls := by
    rw [List.filter_eq_self]
    intro l hl
    unfold keepLine
    have he : l.isEmpty = false := by
      cases l with
      | nil => exact absurd rfl (h1 [] hl)
      | cons x xs => rfl
    have ht : ((trim l).take 1 == ['#']) = false := by
      rw [beq_eq_false_iff_ne]
      intro htake
      have : '#' ∈ (trim l).take 1 := htake ▸ List.mem_cons_self '#' []
      exact h2 l hl (trim_subset l (List.take_subset 1 (trim l) this))
    rw [he, ht]
    rfl
  rw [hf]
  exact map_id_of (fun l hl => truncAtHash_eq_self (h2 l hl))

/-! ## dependency-map lemmas -/

theorem lookup_filter_ne {k k' : List Char} (hne : k' ≠ k) :
    ∀ (m : DepMap), List.lookup k' (List.filter (fun p => p.1 != k) m) = List.lookup k' m := by
  intro m
  induction m with
  | nil => rfl
  | cons p rest ih =>
    obtain ⟨a, b⟩ := p
    by_cases hak : a = k
    · have hbeq : (k' == a) = false :=
        beq_eq_false_iff_ne.mpr (fun h => hne (h.trans hak))
      rw [List.filter_cons, if_neg (by simp [hak]), ih, List.lookup_cons, hbeq]
    · rw [List.filter_cons, if_pos (by simp [hak]), List.lookup_cons, List.lookup_cons, ih]

theorem lookup_filter_self {k : List Char} :
    ∀ (m : DepMap), List.lookup k (List.filter (fun p => p.1 != k) m) = none := by
  intro m
  induction m with
  | nil => rfl
  | cons p rest ih =>
    obtain ⟨a, b⟩ := p
    by_cases hak : a = k
    · rw [List.filter_cons, if_neg (by simp [hak]), ih]
    · have hbeq : (k == a) = false := beq_eq_false_iff_ne.mpr (fun h => hak h.symm)
      rw [List.filter_cons, if_pos (by simp [hak]), List.lookup_cons, hbeq, ih]

theorem lookup_insertKV {k k' : List Char} {v : List (List Char)} {m : DepMap} :
    List.lookup k' (insertKV k v m) =
      if k' = k then some v else List.lookup k' m := by
  unfold insertKV
  by_cases hk : k' = k
  · rw [if_pos hk, List.lookup_cons, beq_iff_eq.mpr hk]
  · rw [if_neg hk, List.lookup_cons, beq_eq_false_iff_ne.mpr hk, lookup_filter_ne hk]

theorem lookup_foldl_not_mem {k : List Char} :
    ∀ (ts : List Target) (m : DepMap), (∀ t ∈ ts, t.name ≠ k) →
      List.lookup k (ts.foldl (fun m t => insertKV t.name t.dependencies m) m) =
        List.lookup k m := by
  intro ts
  induction ts with
  | nil => intro m _; rfl
  | cons t ts ih =>
    intro m h
    rw [List.foldl_cons, ih (insertKV t.name t.dependencies m)
      (fun u hu => h u (List.mem_cons_of_mem t hu))]
    rw [lookup_insertKV, if_neg (fun hk => h t (List.mem_cons_self t ts) hk.symm)]

theorem lookup_buildDepMap_aux :
    ∀ (ts : List Target) (m : DepMap), (ts.map Target.name).Nodup →
      ∀ t ∈ ts, List.lookup t.name
        (ts.foldl (fun m t => insertKV t.name t.dependencies m) m) =
          some t.dependencies := by
  intro ts
  induction ts with
  | nil => intro m _ t ht; simp at ht
  | cons u ts ih =>
    intro m hnd t ht
    rw [List.map_cons, List.nodup_cons] at hnd
    obtain ⟨hu, hnd'⟩ := hnd
    rw [List.foldl_cons]
    rcases List.mem_cons.mp ht with h1 | h2
    · subst h1
      rw [lookup_foldl_not_mem ts _
        (fun w hw hwn => hu (by rw [← hwn]; exact List.mem_map_of_mem Target.name hw))]
      rw [lookup_insertKV, if_pos rfl]
    · exact ih _ hnd' t h2

theorem lookup_buildDepMap {ts : List Target} (hnd : (ts.map Target.name).Nodup)
    {t : Target} (ht : t ∈ ts) :
    List.lookup t.name (buildDepMap ts) = some t.dependencies :=
  lookup_buildDepMap_aux ts [] hnd t ht

/-! ## linkAll lemmas -/

theorem linkAll_of_lookup :
    ∀ (ts : List Target) (m : DepMap),
      (∀ t ∈ ts, List.lookup t.name m = some t.dependencies) →
      (ts.map Target.name).Nodup →
      linkAll ts m = some ts := by
  intro ts
  induction ts with
  | nil => intro m _ _; rfl
  | cons t ts ih =>
    intro m hl hnd
    rw [List.map_cons, List.nodup_cons] at hnd
    obtain ⟨hn, hnd'⟩ := hnd
    have hrem : removeKV t.name m =
        some (t.dependencies, List.filter (fun p => p.1 != t.name) m) := by
      unfold removeKV
      rw [hl t (List.mem_cons_self t ts)]
    have hrest : linkAll ts (List.filter (fun p => p.1 != t.name) m) = some ts := by
      apply ih _ _ hnd'
      intro u hu
      have hne : u.name ≠ t.name :=
        fun hh => hn (by rw [← hh]; exact List.mem_map_of_mem Target.name hu)
      rw [lookup_filter_ne hne]
      exact hl u (List.mem_cons_of_mem t hu)
    unfold linkAll
    rw [hrem]
    show (match linkAll ts (List.filter (fun p => p.1 != t.name) m) with
        | none => none
        | some ts' => some ({ t with dependencies := t.dependencies } :: ts')) = some (t :: ts)
    rw [hrest]

theorem linkAll_success :
    ∀ (ts : List Target) (m : DepMap) (ts' : List Target),
      linkAll ts m = some ts' →
      (ts.map Target.name).Nodup ∧ ∀ t ∈ ts, List.lookup t.name m ≠ none := by
  intro ts
  induction ts with
  | nil => intro m ts' _; exact ⟨List.nodup_nil, by simp⟩
  | cons t ts ih =>
    intro m ts' h
    unfold linkAll at h
    cases hr : removeKV t.name m with
    | none => rw [hr] at h; simp at h
    | some p =>
      obtain ⟨ds, m₁⟩ := p
      rw [hr] at h
      replace h : (match linkAll ts m₁ with
          | none => none
          | some ts₂ => some ({ t with dependencies := ds } :: ts₂)) = some ts' := h
      cases hl : linkAll ts m₁ with
      | none => rw [hl] at h; simp at h
      | some ts₂ =>
        obtain ⟨hnd', hlook⟩ := ih m₁ ts₂ hl
        have hm : List.lookup t.name m = some ds ∧
            m₁ = List.filter (fun p => p.1 != t.name) m := by
          unfold removeKV at hr
          cases hq : List.lookup t.name m with
          | none => rw [hq] at hr; simp at hr
          | some v =>
            rw [hq] at hr
            simp only [Option.some.injEq, Prod.mk.injEq] at hr
            exact ⟨by rw [hr.1], hr.2.symm⟩
        have hnotin : t.name ∉ ts.map Target.name := by
          intro hmem
          rcases List.mem_map.mp hmem with ⟨u, hu, hun⟩
          have := hlook u hu
          rw [hun, hm.2, lookup_filter_self] at this
          exact this rfl
        refine ⟨by rw [List.map_cons, List.nodup_cons]; exact ⟨hnotin, hnd'⟩, ?_⟩
        intro u hu
        rcases List.mem_cons.mp hu with h1 | h2
        · subst h1; rw [hm.1]; simp
        · have hne : u.name ≠ t.name := by
            intro hh
            exact hnotin (hh ▸ List.mem_map_of_mem Target.name h2)
          have := hlook u h2
          rwa [hm.2, lookup_filter_ne hne] at this

/-- Success of the parse pipeline forces pairwise-distinct target names, and the
linking pass is then the identity on the parsed targets. -/
theorem fromStr_ok_inv {input : List Char} {mf : Makefile}
    (h : fromStr input = some (.ok mf)) :
    (mf.targets.map Target.name).Nodup ∧
      parseTargets (preprocess (linesOf input)) = .ok mf.targets := by
  unfold fromStr at h
  cases hp : parseTargets (preprocess (linesOf input)) with
  | error e => rw [hp] at h; simp at h
  | ok ts =>
    rw [hp] at h
    replace h : (match linkAll ts (buildDepMap ts) with
        | none => none
        | some ts' => some (Except.ok (⟨ts'⟩ : Makefile))) = some (.ok mf) := h
    cases hl : linkAll ts (buildDepMap ts) with
    | none => rw [hl] at h; simp at h
    | some ts' =>
      rw [hl] at h
      simp only [Option.some.injEq, Except.ok.injEq] at h
      obtain ⟨hnd, _⟩ := linkAll_success ts (buildDepMap ts) ts' hl
      have hid : linkAll ts (buildDepMap ts) = some ts :=
        linkAll_of_lookup ts (buildDepMap ts)
          (fun t ht => lookup_buildDepMap hnd ht) hnd
      rw [hid] at hl
      have hts : ts' = ts := by
        injection hl with h'
        exact h'.symm
      subst hts
      subst h
      exact ⟨hnd, rfl⟩

/-! ## parse characterization -/

theorem startsTab_append_of_ne_nil {a b : List Char} (ha : a ≠ []) :
    startsTab (a ++ b) = startsTab a := by
  cases a with
  | nil => exact absurd rfl ha
  | cons c cs => rfl

theorem parseTargets_cons_ok {line : List Char} {rest : List (List Char)}
    {tname depStr : List Char} {ts : List Target}
    (hsplit : splitOnceChar ':' line = some (tname, depStr))
    (h : parseTargets (line :: rest) = .ok ts) :
    ∃ ts₂, parseTargets (rest.dropWhile startsTab) = .ok ts₂ ∧
      ts = ⟨tname, (splitWhitespace depStr).map trim,
        (rest.takeWhile startsTab).map trim⟩ :: ts₂ := by
  unfold parseTargets at h
  rw [hsplit] at h
  replace h : (match parseTargets (rest.dropWhile startsTab) with
      | .error e => (.error e : Except MakeError (List Target))
      | .ok ts₂ =>
        .ok (⟨tname, (splitWhitespace depStr).map trim,
          (rest.takeWhile startsTab).map trim⟩ :: ts₂)) = .ok ts := h
  cases hrec : parseTargets (rest.dropWhile startsTab) with
  | error e => rw [hrec] at h; simp at h
  | ok ts₂ =>
    rw [hrec] at h
    simp only [Except.ok.injEq] at h
    exact ⟨ts₂, rfl, h.symm⟩

theorem parseTargets_sound :
    ∀ (ls : List (List Char)) (ts : List Target),
      (∀ l ∈ ls, '#' ∉ l) → (∀ l ∈ ls, '\n' ∉ l) →
      parseTargets ls = .ok ts →
      ∀ t ∈ ts, WFTarget t := by
  intro ls
  induction ls using parseTargets.induct with
  | case1 =>
    intro ts _ _ h t ht
    unfold parseTargets at h
    simp only [Except.ok.injEq] at h
    subst h
    simp at ht
  | case2 line rest hsplit =>
    intro ts _ _ h
    unfold parseTargets at h
    rw [hsplit] at h
    simp at h
  | case3 line rest tname depStr hsplit e herr ih =>
    intro ts _ _ h
    obtain ⟨ts₂, hrec, _⟩ := parseTargets_cons_ok hsplit h
    rw [herr] at hrec
    simp at hrec
  | case4 line rest tname depStr hsplit ts₀ hok ih =>
    intro ts hhash hnl h
    obtain ⟨ts₂, hrec, hts⟩ := parseTargets_cons_ok hsplit h
    rw [hok] at hrec
    replace hrec : ts₀ = ts₂ := by injection hrec
    subst hrec
    subst hts
    have hline : line ∈ line :: rest := List.mem_cons_self _ _
    obtain ⟨hlineeq, hcolon⟩ :=
      splitOnceChar_eq_some (a := tname) (b := depStr) hsplit
    have hsubname : tname ⊆ line := by
      rw [hlineeq]; exact fun c hc => List.mem_append_left _ hc
    have hsubdep : depStr ⊆ line := by
      rw [hlineeq]
      exact fun c hc => List.mem_append_right _ (List.mem_cons_of_mem ':' hc)
    intro t ht
    rcases List.mem_cons.mp ht with h1 | h2
    · subst h1
      refine ⟨⟨hcolon, fun hc => hhash line hline (hsubname hc),
        fun hc => hnl line hline (hsubname hc)⟩, ?_, ?_⟩
      · intro d hd
        rcases List.mem_map.mp hd with ⟨w, hw, rfl⟩
        obtain ⟨hwne, hwf⟩ := mem_splitWhitespace depStr w hw
        have htr : trim w = w := trim_of_ws_free (fun c hc => (hwf c hc).1)
        rw [htr]
        exact ⟨hwne, fun c hc => (hwf c hc).1,
          fun hc => hhash line hline (hsubdep (hwf '#' hc).2)⟩
      · intro c hc
        rcases List.mem_map.mp hc with ⟨l', hl', rfl⟩
        have hl'mem : l' ∈ rest :=
          (List.takeWhile_sublist startsTab).subset hl'
        have hl'mem' : l' ∈ line :: rest := List.mem_cons_of_mem line hl'mem
        exact ⟨trim_idem l',
          fun hc' => hhash l' hl'mem' (trim_subset l' hc'),
          fun hc' => hnl l' hl'mem' (trim_subset l' hc')⟩
    · refine ih ts₀ ?_ ?_ hok t h2 <;> intro l hl
      · exact hhash l (List.mem_cons_of_mem line
          ((List.dropWhile_sublist startsTab).subset hl))
      · exact hnl l (List.mem_cons_of_mem line
          ((List.dropWhile_sublist startsTab).subset hl))

theorem parseTargets_noTab :
    ∀ (ls : List (List Char)) (ts : List Target),
      (∀ a, ls.head? = some a → startsTab a = false) →
      parseTargets ls = .ok ts →
      ∀ t ∈ ts, startsTab t.name = false := by
  intro ls
  induction ls using parseTargets.induct with
  | case1 =>
    intro ts _ h t ht
    unfold parseTargets at h
    simp only [Except.ok.injEq] at h
    subst h
    simp at ht
  | case2 line rest hsplit =>
    intro ts _ h
    unfold parseTargets at h
    rw [hsplit] at h
    simp at h
  | case3 line rest tname depStr hsplit e herr ih =>
    intro ts _ h
    obtain ⟨ts₂, hrec, _⟩ := parseTargets_cons_ok hsplit h
    rw [herr] at hrec
    simp at hrec
  | case4 line rest tname depStr hsplit ts₀ hok ih =>
    intro ts hhd h
    obtain ⟨ts₂, hrec, hts⟩ := parseTargets_cons_ok hsplit h
    rw [hok] at hrec
    replace hrec : ts₀ = ts₂ := by injection hrec
    subst hrec
    subst hts
    intro t ht
    rcases List.mem_cons.mp ht with h1 | h2
    · subst h1
      show startsTab tname = false
      have hlineeq := (splitOnceChar_eq_some (a := tname) (b := depStr) hsplit).1
      cases htn : tname with
      | nil => rfl
      | cons c cs =>
        have := hhd line rfl
        rw [hlineeq, htn, List.cons_append] at this
        exact this
    · exact ih ts₀ (fun a ha => dropWhile_head?_false startsTab rest ha) hok t h2

theorem parseTargets_wf {ls : List (List Char)} {ts : List Target}
    (hhash : ∀ l ∈ ls, '#' ∉ l) (hnl : ∀ l ∈ ls, '\n' ∉ l)
    (h : parseTargets ls = .ok ts) : WFTargets ts := by
  refine ⟨parseTargets_sound ls ts hhash hnl h, ?_⟩
  cases ls with
  | nil =>
    unfold parseTargets at h
    simp only [Except.ok.injEq] at h
    subst h
    simp
  | cons line rest =>
    cases hsplit : splitOnceChar ':' line with
    | none =>
      unfold parseTargets at h
      rw [hsplit] at h
      simp at h
    | some p =>
      obtain ⟨ts₂, hrec, hts⟩ :=
        @parseTargets_cons_ok line rest p.1 p.2 ts (by rw [hsplit]) h
      subst hts
      intro t ht
      exact parseTargets_noTab (rest.dropWhile startsTab) ts₂
        (fun a ha => dropWhile_head?_false startsTab rest ha) hrec t ht

theorem head?_append_or {α : Type} (a b : List α) :
    (a ++ b).head? = a.head?.or b.head? := by
  cases a <;> rfl

theorem getLast?_append_or {α : Type} (a b : List α) :
    (a ++ b).getLast? = b.getLast?.or a.getLast? := by
  rw [← List.head?_reverse, List.reverse_append, head?_append_or,
    List.head?_reverse, List.head?_reverse]

theorem getLast?_ne_none {α : Type} {l : List α} (h : l ≠ []) :
    l.getLast? ≠ none := by
  cases hl : l.getLast? with
  | some a => simp
  | none =>
    rw [List.getLast?_eq_none_iff] at hl
    exact absurd hl h

theorem flatMap_space_getLast? :
    ∀ (ds : List (List Char)), (∀ d ∈ ds, d ≠ [] ∧ ∀ c ∈ d, isWS c = false) →
      ds = [] ∨ ∃ a, (ds.flatMap (fun d => ' ' :: d)).getLast? = some a ∧ isWS a = false := by
  intro ds
  induction ds with
  | nil => intro _; exact Or.inl rfl
  | cons d ds' ih =>
    intro h
    right
    obtain ⟨hne, hwf⟩ := h d (List.mem_cons_self d ds')
    rw [List.flatMap_cons]
    rcases ih (fun e he => h e (List.mem_cons_of_mem d he)) with h0 | ⟨a, ha, hwa⟩
    · subst h0
      cases hd : d.getLast? with
      | none => exact absurd (List.getLast?_eq_none_iff.mp hd) hne
      | some c =>
        refine ⟨c, ?_, hwf c (getLast?_mem hd)⟩
        simp only [List.flatMap_nil, List.append_nil]
        rw [show (' ' :: d) = [' '] ++ d from rfl, getLast?_append_or, hd]
        rfl
    · exact ⟨a, by rw [getLast?_append_or, ha]; rfl, hwa⟩

theorem parseTargets_shape :
    ∀ (ls : List (List Char)) (ts : List Target),
      parseTargets ls = .ok ts →
      ∀ t ∈ ts, ∃ line ∈ ls, ∃ d : List Char,
        splitOnceChar ':' line = some (t.name, d) ∧
        t.dependencies = (splitWhitespace d).map trim := by
  intro ls
  induction ls using parseTargets.induct with
  | case1 =>
    intro ts h t ht
    unfold parseTargets at h
    simp only [Except.ok.injEq] at h
    subst h
    simp at ht
  | case2 line rest hsplit =>
    intro ts h
    unfold parseTargets at h
    rw [hsplit] at h
    simp at h
  | case3 line rest tname depStr hsplit e herr ih =>
    intro ts h
    obtain ⟨ts₂, hrec, _⟩ := parseTargets_cons_ok hsplit h
    rw [herr] at hrec
    simp at hrec
  | case4 line rest tname depStr hsplit ts₀ hok ih =>
    intro ts h
    obtain ⟨ts₂, hrec, hts⟩ := parseTargets_cons_ok hsplit h
    rw [hok] at hrec
    replace hrec : ts₀ = ts₂ := by injection hrec
    subst hrec
    subst hts
    intro t ht
    rcases List.mem_cons.mp ht with h1 | h2
    · subst h1
      exact ⟨line, List.mem_cons_self _ _, depStr, hsplit, rfl⟩
    · obtain ⟨line', hline', d, hd⟩ := ih ts₀ hok t h2
      exact ⟨line', List.mem_cons_of_mem line
        ((List.dropWhile_sublist startsTab).subset hline'), d, hd⟩

/-! ## serialized-lines facts -/

theorem isWS_cr : isWS '\r' = true := rfl

theorem serializeLines_facts {mf : Makefile}
    (hwf : ∀ t ∈ mf.targets, WFTarget t) :
    ∀ l ∈ serializeLines mf, l ≠ [] ∧ '#' ∉ l ∧ '\n' ∉ l ∧ l.getLast? ≠ some '\r' := by
  intro l hl
  unfold serializeLines at hl
  rcases List.mem_flatMap.mp hl with ⟨t, ht, hl'⟩
  obtain ⟨⟨hcol, hh, hn⟩, hdeps, hcmds⟩ := hwf t ht
  rcases List.mem_cons.mp hl' with h1 | h2
  · subst h1
    refine ⟨by simp, ?_, ?_, ?_⟩
    · intro hmem
      rcases List.mem_append.mp hmem with hm1 | hm2
      · exact hh hm1
      · rcases List.mem_cons.mp hm2 with hm3 | hm4
        · exact absurd hm3 (by decide)
        · rcases List.mem_flatMap.mp hm4 with ⟨d, hd, hmd⟩
          rcases List.mem_cons.mp hmd with hm5 | hm6
          · exact absurd hm5 (by decide)
          · exact (hdeps d hd).2.2 hm6
    · intro hmem
      rcases List.mem_append.mp hmem with hm1 | hm2
      · exact hn hm1
      · rcases List.mem_cons.mp hm2 with hm3 | hm4
        · exact absurd hm3 (by decide)
        · rcases List.mem_flatMap.mp hm4 with ⟨d, hd, hmd⟩
          rcases List.mem_cons.mp hmd with hm5 | hm6
          · exact absurd hm5 (by decide)
          · have := ((hdeps d hd).2.1) '\n' hm6
            simp [isWS] at this
    · rw [getLast?_append_or]
      rcases flatMap_space_getLast? t.dependencies
          (fun d hd => ⟨(hdeps d hd).1, (hdeps d hd).2.1⟩) with h0 | ⟨a, ha, hwa⟩
      · rw [h0]
        simp only [List.flatMap_nil]
        rw [show (([':'] : List Char)).getLast? = some ':' by decide]
        intro hcontra
        simp at hcontra
      · rw [show ((':' :: t.dependencies.flatMap (fun d => ' ' :: d)) : List Char) =
            [':'] ++ t.dependencies.flatMap (fun d => ' ' :: d) from rfl,
          getLast?_append_or, ha]
        intro hcontra
        simp only [Option.or_some, Option.some.injEq] at hcontra
        rw [hcontra] at hwa
        exact absurd hwa (by decide)
  · rcases List.mem_map.mp h2 with ⟨c, hc, rfl⟩
    obtain ⟨htr, hch, hcn⟩ := hcmds c hc
    refine ⟨by simp, ?_, ?_, ?_⟩
    · intro hmem
      rcases List.mem_cons.mp hmem with hm1 | hm2
      · exact absurd hm1 (by decide)
      · exact hch hm2
    · intro hmem
      rcases List.mem_cons.mp hmem with hm1 | hm2
      · exact absurd hm1 (by decide)
      · exact hcn hm2
    · rw [show ('\t' :: c) = ['\t'] ++ c from rfl, getLast?_append_or]
      cases hcl : c.getLast? with
      | none => simp
      | some a =>
        have hends := (noWSEnds_trim c).2
        rw [htr] at hends
        have : isWS a = false := by
          apply hends
          rw [List.head?_reverse]
          exact hcl
        intro hcontra
        simp only [Option.or_some, Option.some.injEq] at hcontra
        rw [hcontra] at this
        exact absurd this (by decide)

theorem startsTab_tab_cons (c : List Char) : startsTab ('\t' :: c) = true := rfl

theorem serialized_header_noTab {t : Target}
    (hnt : startsTab t.name = false) :
    startsTab (t.name ++ ':' :: t.dependencies.flatMap (fun d => ' ' :: d)) = false := by
  cases hn : t.name with
  | nil => rfl
  | cons c cs =>
    rw [show ((c :: cs) ++ ':' :: t.dependencies.flatMap (fun d => ' ' :: d)) =
      c :: (cs ++ ':' :: t.dependencies.flatMap (fun d => ' ' :: d)) from rfl]
    rw [hn] at hnt
    exact hnt

theorem parseTargets_serializeLines :
    ∀ (ts : List Target), (∀ t ∈ ts, WFTarget t) →
      (∀ t ∈ ts.tail, startsTab t.name = false) →
      parseTargets (ts.flatMap (fun t =>
        (t.name ++ ':' :: t.dependencies.flatMap (fun d => ' ' :: d)) ::
          t.commands.map (fun c => '\t' :: c))) = .ok ts := by
  intro ts
  induction ts with
  | nil => intro _ _; simp [parseTargets]
  | cons t ts' ih =>
    intro hwf htail
    obtain ⟨⟨hcol, hh, hn⟩, hdeps, hcmds⟩ := hwf t (List.mem_cons_self t ts')
    rw [List.flatMap_cons]
    set cmdLines := t.commands.map (fun c => '\t' :: c) with hcl
    set rest := ts'.flatMap (fun t =>
      (t.name ++ ':' :: t.dependencies.flatMap (fun d => ' ' :: d)) ::
        t.commands.map (fun c => '\t' :: c)) with hrest
    have hcmdtab : ∀ x ∈ cmdLines, startsTab x = true := by
      intro x hx
      rcases List.mem_map.mp hx with ⟨c, _, rfl⟩
      rfl
    have hresthead : ∀ a, rest.head? = some a → startsTab a = false := by
      intro a ha
      cases ts' with
      | nil => simp [hrest] at ha
      | cons u us =>
        rw [hrest, List.flatMap_cons, List.cons_append, List.head?_cons,
          Option.some.injEq] at ha
        subst ha
        exact serialized_header_noTab (htail u (List.mem_cons_self u us))
    have hdrop : (cmdLines ++ rest).dropWhile startsTab = rest := by
      rw [dropWhile_append_all hcmdtab, dropWhile_eq_self_of_head hresthead]
    have htake : (cmdLines ++ rest).takeWhile startsTab = cmdLines := by
      rw [takeWhile_append_all hcmdtab, takeWhile_nil_of_head hresthead,
        List.append_nil]
    have hrec : parseTargets rest = .ok ts' :=
      ih (fun u hu => hwf u (List.mem_cons_of_mem t hu))
        (fun u hu => htail u ((List.tail_sublist ts').subset hu))
    have hsplit : splitOnceChar ':'
        (t.name ++ ':' :: t.dependencies.flatMap (fun d => ' ' :: d)) =
        some (t.name, t.dependencies.flatMap (fun d => ' ' :: d)) :=
      splitOnceChar_append hcol
    have hdepsEq : (splitWhitespace (t.dependencies.flatMap (fun d => ' ' :: d))).map trim =
        t.dependencies := by
      rw [splitWhitespace_flatMap_space t.dependencies
        (fun d hd => ⟨(hdeps d hd).1, (hdeps d hd).2.1⟩)]
      exact map_id_of (fun d hd => trim_of_ws_free ((hdeps d hd).2.1))
    have hcmdsEq : (cmdLines.map trim) = t.commands := by
      rw [hcl, List.map_map]
      exact map_id_of (fun c hc =>
        (trim_cons_ws (c := '\t') (l := c) (by decide)).trans ((hcmds c hc).1))
    rw [List.cons_append]
    unfold parseTargets
    rw [hsplit]
    show (match parseTargets ((cmdLines ++ rest).dropWhile startsTab) with
      | .error e => (.error e : Except MakeError (List Target))
      | .ok ts₂ =>
        .ok (⟨t.name,
          (splitWhitespace (t.dependencies.flatMap (fun d => ' ' :: d))).map trim,
          ((cmdLines ++ rest).takeWhile startsTab).map trim⟩ :: ts₂)) = .ok (t :: ts')
    rw [hdrop, hrec]
    show Except.ok (⟨t.name,
        (splitWhitespace (t.dependencies.flatMap (fun d => ' ' :: d))).map trim,
        ((cmdLines ++ rest).takeWhile startsTab).map trim⟩ :: ts') = .ok (t :: ts')
    rw [htake, hdepsEq, hcmdsEq]

theorem preprocess_linesOf_facts {input l : List Char}
    (hl : l ∈ preprocess (linesOf input)) : '#' ∉ l ∧ '\n' ∉ l := by
  refine ⟨mem_preprocess_no_hash hl, ?_⟩
  obtain ⟨l₀, hl₀, hsub⟩ := mem_preprocess_subset hl
  intro hmem
  exact mem_linesOf_no_nl hl₀ (hsub hmem)

/-- Round trip: a successfully parsed Makefile re-parses from its own
canonical serialization to the same model. -/
theorem fromStr_serialize {input : List Char} {mf : Makefile}
    (h : fromStr input = some (.ok mf)) :
    fromStr (serializeMakefile mf) = some (.ok mf) := by
  obtain ⟨hnd, hp⟩ := fromStr_ok_inv h
  have hwf : WFTargets mf.targets :=
    parseTargets_wf (fun l hl => (preprocess_linesOf_facts hl).1)
      (fun l hl => (preprocess_linesOf_facts hl).2) hp
  have hfacts := serializeLines_facts hwf.1
  have hlines : linesOf (joinLines (serializeLines mf)) = serializeLines mf :=
    linesOf_joinLines (fun l hl => (hfacts l hl).2.2.1)
      (fun l hl => (hfacts l hl).2.2.2)
      (fun hcontra => (hfacts [] (getLast?_mem hcontra)).1 rfl)
  have hpre : preprocess (serializeLines mf) = serializeLines mf :=
    preprocess_eq_self (fun l hl => (hfacts l hl).1) (fun l hl => (hfacts l hl).2.1)
  have hparse : parseTargets (serializeLines mf) = .ok mf.targets :=
    parseTargets_serializeLines mf.targets hwf.1 hwf.2
  have hlink : linkAll mf.targets (buildDepMap mf.targets) = some mf.targets :=
    linkAll_of_lookup _ _ (fun t ht => lookup_buildDepMap hnd ht) hnd
  unfold fromStr serializeMakefile
  rw [hlines, hpre, hparse]
  show (match linkAll mf.targets (buildDepMap mf.targets) with
      | none => none
      | some ts' => some (Except.ok (⟨ts'⟩ : Makefile))) = some (.ok mf)
  rw [hlink]

/-! ## executor lemmas -/

theorem runCommands_all_ok {env : Env} :
    ∀ {cs : List (List Char)}, (∀ c ∈ cs, (env.run c).stderr = []) →
      runCommands env cs = (.ok (), cs.flatMap echoExec) := by
  intro cs
  induction cs with
  | nil => intro _; rfl
  | cons c cs ih =>
    intro h
    unfold runCommands
    rw [if_pos (h c (List.mem_cons_self c cs)),
      ih (fun c' hc' => h c' (List.mem_cons_of_mem c hc'))]
    simp [echoExec]

theorem runCommands_ok_inv {env : Env} :
    ∀ {cs : List (List Char)} {u : Unit} {tr : List Event},
      runCommands env cs = (.ok u, tr) →
      tr = cs.flatMap echoExec ∧ ∀ c ∈ cs, (env.run c).stderr = [] := by
  intro cs
  induction cs with
  | nil =>
    intro u tr h
    unfold runCommands at h
    simp only [Prod.mk.injEq] at h
    exact ⟨h.2.symm, by simp⟩
  | cons c cs ih =>
    intro u tr h
    unfold runCommands at h
    by_cases hc : (env.run c).stderr = []
    · rw [if_pos hc] at h
      simp only [Prod.mk.injEq] at h
      obtain ⟨h1, h2⟩ := h
      have hpair : runCommands env cs = (.ok u, (runCommands env cs).2) := by
        rw [← h1]
      obtain ⟨ht, hall⟩ := ih hpair
      subst h2
      refine ⟨?_, ?_⟩
      · rw [List.flatMap_cons, ht]
        rfl
      · intro c' hc'
        rcases List.mem_cons.mp hc' with h3 | h4
        · exact h3 ▸ hc
        · exact hall c' h4
    · rw [if_neg hc] at h
      simp only [Prod.mk.injEq] at h
      exact absurd h.1 (by simp)

theorem runCommands_fail {env : Env} {c : List Char} (hc : (env.run c).stderr ≠ []) :
    ∀ (pre post : List (List Char)), (∀ c' ∈ pre, (env.run c').stderr = []) →
      runCommands env (pre ++ c :: post) =
        (.error .BuildError, pre.flatMap echoExec ++
          [Event.out c, Event.exec c, Event.errOut (env.run c).stderr]) := by
  intro pre
  induction pre with
  | nil =>
    intro post _
    rw [List.nil_append]
    unfold runCommands
    rw [if_neg hc]
    rfl
  | cons p pre' ih =>
    intro post h
    rw [List.cons_append]
    unfold runCommands
    rw [if_pos (h p (List.mem_cons_self p pre')),
      ih post (fun c' hc' => h c' (List.mem_cons_of_mem p hc'))]
    simp [echoExec]

theorem runCommands_stderr_agree {env env' : Env}
    (hs : ∀ c, (env'.run c).stderr = (env.run c).stderr) :
    ∀ (cs : List (List Char)), runCommands env' cs = runCommands env cs := by
  intro cs
  induction cs with
  | nil => rfl
  | cons c cs ih =>
    unfold runCommands
    rw [hs c, ih]

theorem makeTarget_zero (mf : Makefile) (t : Target) (env : Env) :
    makeTarget 0 mf t env = none := by
  simp only [makeTarget]

theorem makeTarget_succ (fuel : Nat) (mf : Makefile) (t : Target) (env : Env) :
    makeTarget (fuel + 1) mf t env =
      match makeDeps fuel mf (resolvedDeps mf t) env with
      | none => none
      | some (.error e, tr) => some (.error e, tr)
      | some (.ok _, tr) =>
        some ((runCommands env t.commands).1, tr ++ (runCommands env t.commands).2) := by
  simp only [makeTarget]

theorem makeDeps_nil (fuel : Nat) (mf : Makefile) (env : Env) :
    makeDeps fuel mf [] env = some (.ok (), []) := by
  simp only [makeDeps]

theorem makeDeps_cons_target (fuel : Nat) (mf : Makefile) (u : Target)
    (ds : List Dependency) (env : Env) :
    makeDeps fuel mf (.target u :: ds) env =
      match makeTarget fuel mf u env with
      | none => none
      | some (.error e, tr) => some (.error e, tr)
      | some (.ok _, tr) =>
        match makeDeps fuel mf ds env with
        | none => none
        | some (r, tr') => some (r, tr ++ tr') := by
  simp only [makeDeps]

theorem makeDeps_cons_file (fuel : Nat) (mf : Makefile) (f : List Char)
    (ds : List Dependency) (env : Env) :
    makeDeps fuel mf (.file f :: ds) env =
      if env.fileExists f then makeDeps fuel mf ds env
      else some (.error .DependencyDoesNotExist, []) := by
  simp only [makeDeps]

theorem makeDeps_append_ok {mf : Makefile} {env : Env} {fuel : Nat} :
    ∀ (ds1 : List Dependency) {tr1 : List Event} (ds2 : List Dependency),
      makeDeps fuel mf ds1 env = some (.ok (), tr1) →
      makeDeps fuel mf (ds1 ++ ds2) env =
        (makeDeps fuel mf ds2 env).map (fun r => (r.1, tr1 ++ r.2)) := by
  intro ds1
  induction ds1 with
  | nil =>
    intro tr1 ds2 h
    rw [makeDeps_nil] at h
    simp only [Option.some.injEq, Prod.mk.injEq] at h
    rw [List.nil_append, ← h.2]
    cases makeDeps fuel mf ds2 env with
    | none => rfl
    | some r => simp
  | cons d ds1' ih =>
    intro tr1 ds2 h
    rw [List.cons_append]
    cases d with
    | target u =>
      rw [makeDeps_cons_target] at h
      rw [makeDeps_cons_target]
      cases hmt : makeTarget fuel mf u env with
      | none => rw [hmt] at h; simp at h
      | some q =>
        obtain ⟨r0, tr0⟩ := q
        rw [hmt] at h
        cases r0 with
        | error e =>
          replace h : some (Except.error e, tr0) = some (Except.ok (), tr1) := h
          simp at h
        | ok u0 =>
          replace h : (match makeDeps fuel mf ds1' env with
              | none => none
              | some (r, tr') => some (r, tr0 ++ tr')) = some (.ok (), tr1) := h
          cases hmd : makeDeps fuel mf ds1' env with
          | none => rw [hmd] at h; simp at h
          | some q2 =>
            obtain ⟨r2, tr2⟩ := q2
            rw [hmd] at h
            simp only [Option.some.injEq, Prod.mk.injEq] at h
            obtain ⟨hr2, htr⟩ := h
            subst hr2
            show (match makeDeps fuel mf (ds1' ++ ds2) env with
              | none => none
              | some (r, tr') => some (r, tr0 ++ tr')) =
              (makeDeps fuel mf ds2 env).map (fun r => (r.1, tr1 ++ r.2))
            rw [ih ds2 hmd]
            cases makeDeps fuel mf ds2 env with
            | none => rfl
            | some r3 =>
              simp only [Option.map_some']
              rw [← htr, List.append_assoc]
    | file f =>
      rw [makeDeps_cons_file] at h
      rw [makeDeps_cons_file]
      cases hfe : env.fileExists f with
      | false =>
        rw [if_neg (by simp [hfe])] at h
        simp at h
      | true =>
        rw [if_pos hfe] at h
        rw [if_pos rfl]
        exact ih ds2 h

theorem specBuildOrder_zero (mf : Makefile) (t : Target) :
    specBuildOrder 0 mf t = [] := by
  simp only [specBuildOrder]

theorem specBuildOrder_succ (fuel : Nat) (mf : Makefile) (t : Target) :
    specBuildOrder (fuel + 1) mf t =
      specDepsOrder fuel mf (resolvedDeps mf t) ++ t.commands := by
  simp only [specBuildOrder]

theorem specDepsOrder_nil (fuel : Nat) (mf : Makefile) :
    specDepsOrder fuel mf [] = [] := by
  simp only [specDepsOrder]

theorem specDepsOrder_cons_target (fuel : Nat) (mf : Makefile) (u : Target)
    (ds : List Dependency) :
    specDepsOrder fuel mf (.target u :: ds) =
      specBuildOrder fuel mf u ++ specDepsOrder fuel mf ds := by
  simp only [specDepsOrder]

theorem specDepsOrder_cons_file (fuel : Nat) (mf : Makefile) (f : List Char)
    (ds : List Dependency) :
    specDepsOrder fuel mf (.file f :: ds) = specDepsOrder fuel mf ds := by
  simp only [specDepsOrder, List.nil_append]

theorem makeDeps_trace_of {fuel : Nat} {mf : Makefile}
    (hL1 : ∀ (t : Target) (env : Env) (tr : List Event),
      makeTarget fuel mf t env = some (.ok (), tr) →
      tr = (specBuildOrder fuel mf t).flatMap echoExec) :
    ∀ (ds : List Dependency) (env : Env) (tr : List Event),
      makeDeps fuel mf ds env = some (.ok (), tr) →
      tr = (specDepsOrder fuel mf ds).flatMap echoExec := by
  intro ds
  induction ds with
  | nil =>
    intro env tr h
    rw [makeDeps_nil] at h
    simp only [Option.some.injEq, Prod.mk.injEq] at h
    rw [← h.2, specDepsOrder_nil]
    rfl
  | cons d ds ih =>
    intro env tr h
    cases d with
    | target u =>
      rw [makeDeps_cons_target] at h
      cases hmt : makeTarget fuel mf u env with
      | none => rw [hmt] at h; simp at h
      | some q =>
        obtain ⟨r0, tr0⟩ := q
        rw [hmt] at h
        cases r0 with
        | error e =>
          replace h : some (Except.error e, tr0) = some (Except.ok (), tr) := h
          simp at h
        | ok u0 =>
          replace h : (match makeDeps fuel mf ds env with
              | none => none
              | some (r, tr') => some (r, tr0 ++ tr')) = some (.ok (), tr) := h
          cases hmd : makeDeps fuel mf ds env with
          | none => rw [hmd] at h; simp at h
          | some q2 =>
            obtain ⟨r2, tr2⟩ := q2
            rw [hmd] at h
            simp only [Option.some.injEq, Prod.mk.injEq] at h
            obtain ⟨hr2, htr⟩ := h
            subst hr2
            have h1 := hL1 u env tr0 (by rw [hmt])
            have h2 := ih env tr2 (by rw [hmd])
            rw [← htr, h1, h2, specDepsOrder_cons_target, List.flatMap_append]
    | file f =>
      rw [makeDeps_cons_file] at h
      cases hfe : env.fileExists f with
      | false => rw [if_neg (by simp [hfe])] at h; simp at h
      | true =>
        rw [if_pos hfe] at h
        rw [specDepsOrder_cons_file]
        exact ih env tr h

theorem makeTarget_trace :
    ∀ (fuel : Nat) (mf : Makefile) (t : Target) (env : Env) (tr : List Event),
      makeTarget fuel mf t env = some (.ok (), tr) →
      tr = (specBuildOrder fuel mf t).flatMap echoExec := by
  intro fuel
  induction fuel with
  | zero =>
    intro mf t env tr h
    rw [makeTarget_zero] at h
    simp at h
  | succ fuel ih =>
    intro mf t env tr h
    rw [makeTarget_succ] at h
    cases hmd : makeDeps fuel mf (resolvedDeps mf t) env with
    | none => rw [hmd] at h; simp at h
    | some q =>
      obtain ⟨r0, tr0⟩ := q
      rw [hmd] at h
      cases r0 with
      | error e =>
        replace h : some (Except.error e, tr0) = some (Except.ok (), tr) := h
        simp at h
      | ok u0 =>
        replace h : some ((runCommands env t.commands).1,
            tr0 ++ (runCommands env t.commands).2) = some (.ok (), tr) := h
        simp only [Option.some.injEq, Prod.mk.injEq] at h
        obtain ⟨hr, htr⟩ := h
        have hrc : runCommands env t.commands = (.ok (), (runCommands env t.commands).2) := by
          rw [← hr]
        obtain ⟨hflat, _⟩ := runCommands_ok_inv hrc
        have hdeps := makeDeps_trace_of (fun t' env' tr' h' => ih mf t' env' tr' h')
          (resolvedDeps mf t) env tr0 (by rw [hmd])
        rw [← htr, hdeps, hflat, specBuildOrder_succ, List.flatMap_append]

theorem makeDeps_agree_of {fuel : Nat} {mf : Makefile} {env env' : Env}
    (hf : ∀ f, env'.fileExists f = env.fileExists f)
    (hL1 : ∀ t, makeTarget fuel mf t env' = makeTarget fuel mf t env) :
    ∀ ds, makeDeps fuel mf ds env' = makeDeps fuel mf ds env := by
  intro ds
  induction ds with
  | nil => rw [makeDeps_nil, makeDeps_nil]
  | cons d ds ih =>
    cases d with
    | target u => rw [makeDeps_cons_target, makeDeps_cons_target, hL1 u, ih]
    | file f => rw [makeDeps_cons_file, makeDeps_cons_file, hf f, ih]

/-- The executor never consults a command's exit status or captured stdout:
two environments that agree on stderr and file existence produce identical
results and traces. -/
theorem makeTarget_agree {env env' : Env}
    (hs : ∀ c, (env'.run c).stderr = (env.run c).stderr)
    (hf : ∀ f, env'.fileExists f = env.fileExists f) :
    ∀ (fuel : Nat) (mf : Makefile) (t : Target),
      makeTarget fuel mf t env' = makeTarget fuel mf t env := by
  intro fuel
  induction fuel with
  | zero => intro mf t; rw [makeTarget_zero, makeTarget_zero]
  | succ fuel ih =>
    intro mf t
    rw [makeTarget_succ, makeTarget_succ,
      makeDeps_agree_of hf (fun t' => ih mf t') (resolvedDeps mf t),
      runCommands_stderr_agree hs t.commands]

theorem makeTarget_cmd_fail {fuel : Nat} {mf : Makefile} {t : Target} {env : Env}
    {pre post : List (List Char)} {c : List Char} {trd : List Event}
    (hcmds : t.commands = pre ++ c :: post)
    (hdeps : makeDeps fuel mf (resolvedDeps mf t) env = some (.ok (), trd))
    (hpre : ∀ c' ∈ pre, (env.run c').stderr = [])
    (hc : (env.run c).stderr ≠ []) :
    makeTarget (fuel + 1) mf t env = some (.error .BuildError,
      trd ++ (pre.flatMap echoExec ++
        [Event.out c, Event.exec c, Event.errOut (env.run c).stderr])) := by
  rw [makeTarget_succ, hdeps]
  show some ((runCommands env t.commands).1, trd ++ (runCommands env t.commands).2) = _
  rw [hcmds, runCommands_fail hc pre post hpre]

theorem makeDeps_head_err {fuel : Nat} {mf : Makefile} {u : Target}
    {ds : List Dependency} {env : Env} {e : MakeError} {tr : List Event}
    (h : makeTarget fuel mf u env = some (.error e, tr)) :
    makeDeps fuel mf (.target u :: ds) env = some (.error e, tr) := by
  rw [makeDeps_cons_target, h]

theorem makeDeps_file_missing {fuel : Nat} {mf : Makefile} {n : List Char}
    {ds : List Dependency} {env : Env} (h : env.fileExists n = false) :
    makeDeps fuel mf (.file n :: ds) env =
      some (.error .DependencyDoesNotExist, []) := by
  rw [makeDeps_cons_file, if_neg (by simp [h])]

theorem makeTarget_missing_dep {fuel : Nat} {mf : Makefile} {t : Target} {env : Env}
    {p q : List (List Char)} {n : List Char} {tr : List Event}
    (hdep : t.dependencies = p ++ n :: q)
    (hfind : mf.targets.find? (fun u => u.name == n) = none)
    (h1 : makeDeps fuel mf (p.map (resolveDep mf)) env = some (.ok (), tr))
    (hfe : env.fileExists n = false) :
    makeTarget (fuel + 1) mf t env = some (.error .DependencyDoesNotExist, tr) := by
  have hres : resolvedDeps mf t =
      p.map (resolveDep mf) ++ .file n :: q.map (resolveDep mf) := by
    rw [resolvedDeps, hdep, List.map_append, List.map_cons]
    have : resolveDep mf n = .file n := by
      unfold resolveDep
      rw [hfind]
    rw [this]
  rw [makeTarget_succ, hres,
    makeDeps_append_ok (p.map (resolveDep mf))
      (Dependency.file n :: q.map (resolveDep mf)) h1,
    makeDeps_file_missing hfe]
  simp only [Option.map_some', List.append_nil]

/-! ## Claim theorems -/

/-- C2: for every build of a target in which all dependencies and commands
succeed, the emitted trace is exactly the pre-order, depth-first,
left-to-right traversal of the dependency lists — every dependency target's
full command sequence (echo + shell execution, in command order) runs before
the owning target's own commands. -/
theorem c2_build_order {fuel : Nat} {mf : Makefile} {t : Target} {env : Env}
    {tr : List Event} (h : makeTarget fuel mf t env = some (.ok (), tr)) :
    tr = (specBuildOrder fuel mf t).flatMap echoExec :=
  makeTarget_trace fuel mf t env tr h

/-- C2 witness: `a: b c`, `b:` with `bcmd`, `c:` with `ccmd`, `a` with `acmd`
builds in the order `bcmd`, `ccmd`, `acmd`. -/
theorem c2_build_order_witness :
    makeTarget 3 ⟨[⟨str "a", [str "b", str "c"], [str "acmd"]⟩,
        ⟨str "b", [], [str "bcmd"]⟩, ⟨str "c", [], [str "ccmd"]⟩]⟩
      ⟨str "a", [str "b", str "c"], [str "acmd"]⟩ quietEnv =
      some (.ok (), [.out (str "bcmd"), .exec (str "bcmd"),
        .out (str "ccmd"), .exec (str "ccmd"),
        .out (str "acmd"), .exec (str "acmd")]) ∧
    ([.out (str "bcmd"), .exec (str "bcmd"),
        .out (str "ccmd"), .exec (str "ccmd"),
        .out (str "acmd"), .exec (str "acmd")] : List Event) =
      (specBuildOrder 3 ⟨[⟨str "a", [str "b", str "c"], [str "acmd"]⟩,
        ⟨str "b", [], [str "bcmd"]⟩, ⟨str "c", [], [str "ccmd"]⟩]⟩
        ⟨str "a", [str "b", str "c"], [str "acmd"]⟩).flatMap echoExec := by
  have h1 : makeTarget 3 ⟨[⟨str "a", [str "b", str "c"], [str "acmd"]⟩,
      ⟨str "b", [], [str "bcmd"]⟩, ⟨str "c", [], [str "ccmd"]⟩]⟩
      ⟨str "a", [str "b", str "c"], [str "acmd"]⟩ quietEnv =
      some (.ok (), [.out (str "bcmd"), .exec (str "bcmd"),
        .out (str "ccmd"), .exec (str "ccmd"),
        .out (str "acmd"), .exec (str "acmd")]) := by
    simp [str, makeTarget, makeDeps, resolvedDeps, resolveDep, List.find?,
      runCommands, quietEnv, echoExec]
  exact ⟨h1, c2_build_order h1⟩

/-- C4: re-serializing a successfully parsed Makefile into the canonical
header+tab-command text and parsing again yields an equal model (same names,
dependency lists and command lists, in order). -/
theorem c4_parse_serialize_roundtrip {input : List Char} {mf : Makefile}
    (h : fromStr input = some (.ok mf)) :
    fromStr (serializeMakefile mf) = some (.ok mf) :=
  fromStr_serialize h

/-- C4 witness: a concrete parse and its round trip. -/
theorem c4_parse_serialize_roundtrip_witness :
    fromStr (str "a: b\n\tcmd\nb:\n") =
      some (.ok ⟨[⟨str "a", [str "b"], [str "cmd"]⟩, ⟨str "b", [], []⟩]⟩) ∧
    fromStr (serializeMakefile ⟨[⟨str "a", [str "b"], [str "cmd"]⟩, ⟨str "b", [], []⟩]⟩) =
      some (.ok ⟨[⟨str "a", [str "b"], [str "cmd"]⟩, ⟨str "b", [], []⟩]⟩) := by
  have h1 : fromStr (str "a: b\n\tcmd\nb:\n") =
      some (.ok ⟨[⟨str "a", [str "b"], [str "cmd"]⟩, ⟨str "b", [], []⟩]⟩) := by
    simp [fromStr, str, linesOf, splitOnNl, stripCR, preprocess, keepLine, trim, isWS,
      truncAtHash, splitOnceChar, parseTargets, startsTab, splitWhitespace,
      buildDepMap, insertKV, linkAll, removeKV, List.lookup]
  exact ⟨h1, c4_parse_serialize_roundtrip h1⟩

/-- C8: requesting a top-level name that matches no target fails with
`NoSuchTarget` with an empty trace (no command runs, nothing is emitted), for
every environment — in particular the file-existence fallback is never
consulted for top-level names. -/
theorem c8_no_such_target {fuel : Nat} {mf : Makefile} {name : List Char}
    {env : Env} (h : ∀ t ∈ mf.targets, t.name ≠ name) :
    makefileMake fuel mf name env = some (.error .NoSuchTarget, []) := by
  unfold makefileMake
  have hfind : mf.targets.find? (fun t => t.name == name) = none := by
    rw [List.find?_eq_none]
    intro t ht
    simp [h t ht]
  rw [hfind]

/-- C8 witness: requesting `zzz` in an environment where every path exists
(the fallback would succeed if it were consulted) still yields `NoSuchTarget`
and an empty trace. -/
theorem c8_no_such_target_witness :
    makefileMake 5 ⟨[⟨str "a", [], [str "acmd"]⟩, ⟨str "b", [], []⟩]⟩
      (str "zzz") allFilesEnv = some (.error .NoSuchTarget, []) := by
  exact c8_no_such_target (by decide)

/-- C9: no memoization: in the diamond `a: b c`, `b: d`, `c: d`,
`d:` with command `x`, building `a` executes `x` twice — once per occurrence
of `d` in the depth-first traversal — and the spec-order traversal lists it
once per occurrence as well. -/
theorem c9_no_memoization :
    makefileMake 4 ⟨[⟨str "a", [str "b", str "c"], []⟩, ⟨str "b", [str "d"], []⟩,
        ⟨str "c", [str "d"], []⟩, ⟨str "d", [], [str "x"]⟩]⟩ (str "a") quietEnv =
      some (.ok (), [.out (str "x"), .exec (str "x"),
        .out (str "x"), .exec (str "x")]) ∧
    specBuildOrder 4 ⟨[⟨str "a", [str "b", str "c"], []⟩, ⟨str "b", [str "d"], []⟩,
        ⟨str "c", [str "d"], []⟩, ⟨str "d", [], [str "x"]⟩]⟩
      ⟨str "a", [str "b", str "c"], []⟩ = [str "x", str "x"] := by
  constructor
  · simp [makefileMake, str, makeTarget, makeDeps, resolvedDeps, resolveDep,
      List.find?, runCommands, quietEnv, echoExec]
  · simp [str, specBuildOrder, specDepsOrder, resolvedDeps, resolveDep, List.find?]

/-- C1 counterexample: an input with two header lines sharing the name `a`
does NOT parse successfully — `from_str` panics (the second
`deps.remove(name).unwrap()` of the linking pass unwraps `None`), modelled
as the `none` result. -/
theorem c1_counterexample : fromStr (str "a:\na:") = none := by
  simp [fromStr, str, linesOf, splitOnNl, stripCR, preprocess, keepLine, trim, isWS,
    truncAtHash, splitOnceChar, parseTargets, startsTab, splitWhitespace,
    buildDepMap, insertKV, linkAll, removeKV, List.lookup]

/-- C1 (amended): whenever the header pass produces two targets with the same
name, `from_str` panics (returns no Makefile at all); consequently every
successfully parsed Makefile has pairwise-distinct target names and
lookup-by-name (`find`, first structural match) is unambiguous. -/
theorem c1_duplicate_names_reject {input : List Char} {ts : List Target}
    (hp : parseTargets (preprocess (linesOf input)) = .ok ts)
    (hdup : ¬ (ts.map Target.name).Nodup) :
    fromStr input = none := by
  unfold fromStr
  rw [hp]
  show (match linkAll ts (buildDepMap ts) with
      | none => none
      | some ts' => some (Except.ok (⟨ts'⟩ : Makefile))) = none
  cases hl : linkAll ts (buildDepMap ts) with
  | none => rfl
  | some ts' => exact absurd (linkAll_success ts _ ts' hl).1 hdup

/-- C1 witness: the duplicated-name input `a:\na:` reaches the header pass
with two targets named `a` and panics. -/
theorem c1_duplicate_names_reject_witness :
    parseTargets (preprocess (linesOf (str "a:\na:"))) =
      .ok [⟨str "a", [], []⟩, ⟨str "a", [], []⟩] ∧
    ¬ (([⟨str "a", [], []⟩, ⟨str "a", [], []⟩] : List Target).map Target.name).Nodup ∧
    fromStr (str "a:\na:") = none := by
  have h1 : parseTargets (preprocess (linesOf (str "a:\na:"))) =
      .ok [⟨str "a", [], []⟩, ⟨str "a", [], []⟩] := by
    simp [str, linesOf, splitOnNl, stripCR, preprocess, keepLine, trim, isWS,
      truncAtHash, splitOnceChar, parseTargets, startsTab, splitWhitespace]
  have h2 : ¬ (([⟨str "a", [], []⟩, ⟨str "a", [], []⟩] : List Target).map Target.name).Nodup := by
    decide
  exact ⟨h1, h2, c1_duplicate_names_reject h1 h2⟩

/-- C3: during a build, a command's failure is decided solely by its captured
stderr: with all dependencies satisfied (trace `trd`) and commands
`pre ++ c :: post` where every command of `pre` has empty stderr and `c` has
non-empty stderr, the build echoes and runs `pre` and `c`, forwards `c`'s
stderr, and stops with `BuildError` — nothing of `post` runs (first
conjunct); a target depending on `t` runs nothing further either (second
conjunct); commands with empty stderr succeed regardless of exit status
(third conjunct); and the whole build result is unchanged under any
reassignment of exit statuses and stdout (fourth conjunct — the exit status
is never consulted). -/
theorem c3_stderr_is_sole_failure_signal {fuel : Nat} {mf : Makefile} {t : Target}
    {env env' : Env} {pre q : List (List Char)} {c : List Char}
    {trd : List Event} {ds : List Dependency}
    (hcmds : t.commands = pre ++ c :: q)
    (hdeps : makeDeps fuel mf (resolvedDeps mf t) env = some (.ok (), trd))
    (hpre : ∀ c' ∈ pre, (env.run c').stderr = [])
    (hc : (env.run c).stderr ≠ [])
    (hs : ∀ c0, (env'.run c0).stderr = (env.run c0).stderr)
    (hf : ∀ f, env'.fileExists f = env.fileExists f) :
    makeTarget (fuel + 1) mf t env = some (.error .BuildError,
      trd ++ (pre.flatMap echoExec ++
        [Event.out c, Event.exec c, Event.errOut (env.run c).stderr]))
    ∧ makeDeps (fuel + 1) mf (.target t :: ds) env = some (.error .BuildError,
      trd ++ (pre.flatMap echoExec ++
        [Event.out c, Event.exec c, Event.errOut (env.run c).stderr]))
    ∧ runCommands env pre = (.ok (), pre.flatMap echoExec)
    ∧ makeTarget (fuel + 1) mf t env' = makeTarget (fuel + 1) mf t env := by
  have h1 := makeTarget_cmd_fail hcmds hdeps hpre hc
  exact ⟨h1, makeDeps_head_err h1, runCommands_all_ok hpre,
    makeTarget_agree hs hf (fuel + 1) mf t⟩

/-- C3 witness: target `t` with commands `ok1`, `bcmd`, `never` under
`boomEnv` (where only `bcmd` writes to stderr, and `ok1` exits with status 1):
the build runs `ok1` and `bcmd`, forwards `boom`, fails with `BuildError`,
and behaves identically under `boomEnv2` (same stderr, different statuses
and stdout). -/
theorem c3_stderr_is_sole_failure_signal_witness :
    makeTarget 1 ⟨[⟨str "t", [], [str "ok1", str "bcmd", str "never"]⟩]⟩
      ⟨str "t", [], [str "ok1", str "bcmd", str "never"]⟩ boomEnv =
      some (.error .BuildError,
        ([] : List Event) ++ (([str "ok1"] : List (List Char)).flatMap echoExec ++
          [Event.out (str "bcmd"), Event.exec (str "bcmd"),
            Event.errOut (boomEnv.run (str "bcmd")).stderr]))
    ∧ makeDeps 1 ⟨[⟨str "t", [], [str "ok1", str "bcmd", str "never"]⟩]⟩
      (.target ⟨str "t", [], [str "ok1", str "bcmd", str "never"]⟩ :: []) boomEnv =
      some (.error .BuildError,
        ([] : List Event) ++ (([str "ok1"] : List (List Char)).flatMap echoExec ++
          [Event.out (str "bcmd"), Event.exec (str "bcmd"),
            Event.errOut (boomEnv.run (str "bcmd")).stderr]))
    ∧ runCommands boomEnv [str "ok1"] = (.ok (), ([str "ok1"] : List (List Char)).flatMap echoExec)
    ∧ makeTarget 1 ⟨[⟨str "t", [], [str "ok1", str "bcmd", str "never"]⟩]⟩
      ⟨str "t", [], [str "ok1", str "bcmd", str "never"]⟩ boomEnv2 =
      makeTarget 1 ⟨[⟨str "t", [], [str "ok1", str "bcmd", str "never"]⟩]⟩
      ⟨str "t", [], [str "ok1", str "bcmd", str "never"]⟩ boomEnv := by
  refine c3_stderr_is_sole_failure_signal (c := str "bcmd") (q := [str "never"]) ?_ ?_ ?_ ?_ ?_ ?_
  · simp [str]
  · simp [str, makeDeps, resolvedDeps]
  · intro c' hc'
    simp [str] at hc'
    simp [hc', boomEnv, str]
  · simp [boomEnv, str]
  · intro c0
    simp [boomEnv, boomEnv2, str]
    split <;> rfl
  · intro f
    rfl

/-- C5 counterexample: target `a` depends on `b` then `missing` (no target
named `missing`, and the file does not exist), but because `b`'s command
fails first, building `a` yields `BuildError`, not `DependencyDoesNotExist`
— the claim's unconditional "always `DependencyDoesNotExist`" is false. -/
theorem c5_counterexample :
    makefileMake 3 ⟨[⟨str "a", [str "b", str "missing"], []⟩,
        ⟨str "b", [], [str "bcmd"]⟩]⟩ (str "a") boomEnv =
      some (.error .BuildError,
        [.out (str "bcmd"), .exec (str "bcmd"), .errOut (str "boom")]) ∧
    MakeError.BuildError ≠ MakeError.DependencyDoesNotExist := by
  constructor
  · simp [makefileMake, str, makeTarget, makeDeps, resolvedDeps, resolveDep,
      List.find?, runCommands, boomEnv, echoExec]
  · decide

/-- C5 (amended): a dependency entry `n` that matches no target name and does
not exist as a file makes the build fail with `DependencyDoesNotExist` at any
position of the dependency list — provided every entry before it succeeds —
and at any depth (a target depending on `t` fails the same way); none of the
target's own commands run (the trace is exactly the earlier dependencies'
trace `tr`). -/
theorem c5_missing_dependency {fuel : Nat} {mf : Makefile} {t : Target}
    {env : Env} {p q : List (List Char)} {n : List Char} {tr : List Event}
    {ds : List Dependency}
    (hdep : t.dependencies = p ++ n :: q)
    (hfind : mf.targets.find? (fun u => u.name == n) = none)
    (h1 : makeDeps fuel mf (p.map (resolveDep mf)) env = some (.ok (), tr))
    (hfe : env.fileExists n = false) :
    makeTarget (fuel + 1) mf t env = some (.error .DependencyDoesNotExist, tr)
    ∧ makeDeps (fuel + 1) mf (.target t :: ds) env =
      some (.error .DependencyDoesNotExist, tr) := by
  have h2 := makeTarget_missing_dep hdep hfind h1 hfe
  exact ⟨h2, makeDeps_head_err h2⟩

/-- C5 witness: `a: b missing` where `b` builds fine (running `bcmd`): the
build fails with `DependencyDoesNotExist`, and the trace holds only `b`'s
commands — none of `a`'s own. -/
theorem c5_missing_dependency_witness :
    makeTarget 3 ⟨[⟨str "a", [str "b", str "missing"], [str "acmd"]⟩,
        ⟨str "b", [], [str "bcmd"]⟩]⟩
      ⟨str "a", [str "b", str "missing"], [str "acmd"]⟩ quietEnv =
      some (.error .DependencyDoesNotExist,
        [.out (str "bcmd"), .exec (str "bcmd")])
    ∧ makeDeps 3 ⟨[⟨str "a", [str "b", str "missing"], [str "acmd"]⟩,
        ⟨str "b", [], [str "bcmd"]⟩]⟩
      (.target ⟨str "a", [str "b", str "missing"], [str "acmd"]⟩ :: []) quietEnv =
      some (.error .DependencyDoesNotExist,
        [.out (str "bcmd"), .exec (str "bcmd")]) := by
  refine c5_missing_dependency (p := [str "b"]) (q := []) (n := str "missing")
    ?_ ?_ ?_ ?_
  · simp [str]
  · simp [str, List.find?]
  · simp [str, makeDeps, makeTarget, resolvedDeps, resolveDep, List.find?,
      runCommands, quietEnv, echoExec]
  · rfl

/-- C6 counterexample: the header `foo : bar` parses to a target named
`"foo "` (with a trailing space) — the name is NOT whitespace-trimmed, so it
differs from `"foo"`. -/
theorem c6_counterexample :
    fromStr (str "foo : bar") =
      some (.ok ⟨[⟨str "foo ", [str "bar"], []⟩]⟩) ∧ str "foo " ≠ str "foo" := by
  constructor
  · simp [fromStr, str, linesOf, splitOnNl, stripCR, preprocess, keepLine, trim, isWS,
      truncAtHash, splitOnceChar, parseTargets, startsTab, splitWhitespace,
      buildDepMap, insertKV, linkAll, removeKV, List.lookup]
  · decide

/-- C6 (amended): in every successfully parsed Makefile, a target's name is
the untrimmed substring of its (comment-truncated) header line before the
first `':'`, and its dependency list is the whitespace-split token list of
the substring after that `':'` (each token mapped through `trim`, a no-op on
whitespace-free tokens). -/
theorem c6_header_shape {input : List Char} {mf : Makefile}
    (h : fromStr input = some (.ok mf)) :
    ∀ t ∈ mf.targets, ∃ line ∈ preprocess (linesOf input), ∃ d : List Char,
      splitOnceChar ':' line = some (t.name, d) ∧
      t.dependencies = (splitWhitespace d).map trim := by
  obtain ⟨_, hp⟩ := fromStr_ok_inv h
  exact parseTargets_shape _ _ hp

/-- C6 witness: the header `foo : bar` yields name `"foo "` and dependency
token `bar`, related to the line exactly by `splitOnceChar`/`splitWhitespace`. -/
theorem c6_header_shape_witness :
    fromStr (str "foo : bar") = some (.ok ⟨[⟨str "foo ", [str "bar"], []⟩]⟩) ∧
    ∀ t ∈ (⟨[⟨str "foo ", [str "bar"], []⟩]⟩ : Makefile).targets,
      ∃ line ∈ preprocess (linesOf (str "foo : bar")), ∃ d : List Char,
        splitOnceChar ':' line = some (t.name, d) ∧
        t.dependencies = (splitWhitespace d).map trim := by
  have h1 : fromStr (str "foo : bar") =
      some (.ok ⟨[⟨str "foo ", [str "bar"], []⟩]⟩) := by
    simp [fromStr, str, linesOf, splitOnNl, stripCR, preprocess, keepLine, trim, isWS,
      truncAtHash, splitOnceChar, parseTargets, startsTab, splitWhitespace,
      buildDepMap, insertKV, linkAll, removeKV, List.lookup]
  exact ⟨h1, c6_header_shape h1⟩

/-- C7 counterexample: the header `: a` parses successfully to a target whose
name is the EMPTY string — parse can produce empty names. -/
theorem c7_counterexample :
    fromStr (str ": a") = some (.ok ⟨[⟨[], [str "a"], []⟩]⟩) ∧
    (⟨[], [str "a"], []⟩ : Target).name = [] := by
  constructor
  · simp [fromStr, str, linesOf, splitOnNl, stripCR, preprocess, keepLine, trim, isWS,
      truncAtHash, splitOnceChar, parseTargets, startsTab, splitWhitespace,
      buildDepMap, insertKV, linkAll, removeKV, List.lookup]
  · rfl

/-- C7 (amended): a parsed target's name may be empty (see the
counterexample), but it never contains `':'` (it lies before the first colon
of its header) nor `'#'` (inline comments are truncated first). -/
theorem c7_name_no_colon_no_hash {input : List Char} {mf : Makefile}
    (h : fromStr input = some (.ok mf)) :
    ∀ t ∈ mf.targets, ':' ∉ t.name ∧ '#' ∉ t.name := by
  obtain ⟨_, hp⟩ := fromStr_ok_inv h
  have hwf := parseTargets_sound _ _
    (fun l hl => (preprocess_linesOf_facts hl).1)
    (fun l hl => (preprocess_linesOf_facts hl).2) hp
  intro t ht
  exact ⟨(hwf t ht).1.1, (hwf t ht).1.2.1⟩

/-- C7 witness: in the parsed example `ab: c`, the single target's name `ab`
contains neither `':'` nor `'#'`. -/
theorem c7_name_no_colon_no_hash_witness :
    fromStr (str "ab: c") = some (.ok ⟨[⟨str "ab", [str "c"], []⟩]⟩) ∧
    ∀ t ∈ (⟨[⟨str "ab", [str "c"], []⟩]⟩ : Makefile).targets,
      ':' ∉ t.name ∧ '#' ∉ t.name := by
  have h1 : fromStr (str "ab: c") = some (.ok ⟨[⟨str "ab", [str "c"], []⟩]⟩) := by
    simp [fromStr, str, linesOf, splitOnNl, stripCR, preprocess, keepLine, trim, isWS,
      truncAtHash, splitOnceChar, parseTargets, startsTab, splitWhitespace,
      buildDepMap, insertKV, linkAll, removeKV, List.lookup]
  exact ⟨h1, c7_name_no_colon_no_hash h1⟩

/-- C10: a tab-initial line whose trimmed content is empty, sitting right
after a header in the (comment-filtered) line stream, is recorded as an
empty-string command (first conjunct); the build does not skip an empty
command: it prints the blank line and invokes the shell on the empty string
(second conjunct, the first two events of the command loop); concretely,
parsing `a:\n\t \n` and building `a` emits exactly those events (third and
fourth conjuncts). -/
theorem c10_empty_command {l cl : List Char} {ls : List (List Char)}
    {n d : List Char} {ts : List Target} {env : Env} {cs : List (List Char)}
    (hsplit : splitOnceChar ':' l = some (n, d))
    (htab : startsTab cl = true) (htrim : trim cl = [])
    (hparse : parseTargets (l :: cl :: ls) = .ok ts) :
    (∃ t0 ts₂, ts = t0 :: ts₂ ∧ t0.commands.head? = some []) ∧
    (runCommands env ([] :: cs)).2.take 2 = [Event.out [], Event.exec []] ∧
    fromStr (str "a:\n\t \n") = some (.ok ⟨[⟨str "a", [], [[]]⟩]⟩) ∧
    makefileMake 1 ⟨[⟨str "a", [], [[]]⟩]⟩ (str "a") quietEnv =
      some (.ok (), [Event.out [], Event.exec []]) := by
  refine ⟨?_, ?_, ?_, ?_⟩
  · obtain ⟨ts₂, _, hts⟩ := parseTargets_cons_ok hsplit hparse
    refine ⟨_, ts₂, hts, ?_⟩
    rw [List.takeWhile_cons, if_pos htab, List.map_cons, htrim]
    rfl
  · unfold runCommands
    by_cases he : (env.run []).stderr = []
    · rw [if_pos he]
      rfl
    · rw [if_neg he]
      rfl
  · simp [fromStr, str, linesOf, splitOnNl, stripCR, preprocess, keepLine, trim, isWS,
      truncAtHash, splitOnceChar, parseTargets, startsTab, splitWhitespace,
      buildDepMap, insertKV, linkAll, removeKV, List.lookup]
  · simp [makefileMake, str, makeTarget, makeDeps, resolvedDeps, resolveDep,
      List.find?, runCommands, quietEnv, echoExec]

/-- C10 witness: the header `a:` followed by the line `"\t "` records the
empty command, and a run of `[""]` starts by printing a blank line and
invoking the shell on the empty string. -/
theorem c10_empty_command_witness :
    parseTargets [str "a:", str "\t "] = .ok [⟨str "a", [], [[]]⟩] ∧
    (∃ t0 ts₂, ([⟨str "a", [], [[]]⟩] : List Target) = t0 :: ts₂ ∧
      t0.commands.head? = some []) ∧
    (runCommands boomEnv ([] :: [str "x"])).2.take 2 = [Event.out [], Event.exec []] := by
  have h1 : parseTargets [str "a:", str "\t "] = .ok [⟨str "a", [], [[]]⟩] := by
    simp [str, parseTargets, splitOnceChar, startsTab, splitWhitespace, trim, isWS]
  have h2 := @c10_empty_command (str "a:") (str "\t ") [] (str "a") []
    [⟨str "a", [], [[]]⟩] boomEnv [str "x"]
    (by decide) (by decide) (by decide) h1
  exact ⟨h1, h2.1, h2.2.1⟩

end MakeRs
